import Mathlib

set_option maxRecDepth 400000

/-!
Verification of the Verkle-tree implementation (`src/src/*.rs`) against its
natural-language specification.

The Rust source is shallowly embedded as follows:

* `[u8; 32]` keys become `Fin 32 → Fin 256`; `split_key` becomes `splitKey`.
* `Vec<u8>` values become `List Nat`.
* The `Node` enum (node.rs) becomes `Node Fr`; the Rust `Option<Box<Node>>`
  child / root slots are encoded by an explicit `Node.absent` constructor
  (standing for `None`), which makes structural recursion over the 256-ary
  children array available.
* The `VectorCommitment` trait (vc.rs) becomes the `VCScheme` record of
  operations; tree operations are parametric over it exactly as the Rust code is
  generic over `V: VectorCommitment`.  The concrete KZG backend (kzg.rs) is
  out of scope of the claims; a computable perfectly-complete instance
  `idealVC` is used for concrete evaluations.
* `hash_to_field` (BLAKE3 reduced modulo the scalar field) is a parameter
  of `VCScheme`; `idealVC` models it by a computable bounded rolling hash.
* Functions that can panic (`unwrap`, `unreachable!`, out-of-bounds
  indexing) are modelled with the `Res` result type whose `crash`
  constructor marks a panic, when the panic is observable behaviour
  (`prove_get`, `verify_proof`); dead `unreachable!` arms inside `insert`
  are modelled as no-ops and are provably never taken from reachable trees.
-/

namespace Verkle

/-! ## Keys, stems, values (node.rs) -/

abbrev Byte := Fin 256

/-- `type Stem = [u8; 31]` (node.rs). -/
abbrev Stem := Fin 31 → Byte

/-- A 32-byte key. -/
abbrev Key := Fin 32 → Byte

/-- `pub struct Value(pub Vec<u8>)` (node.rs): an opaque byte string. -/
abbrev Value := List Nat

/-- `split_key` (node.rs): stem = first 31 bytes, suffix = last byte. -/
def splitKey (key : Key) : Stem × Byte :=
  (fun i => key ⟨i.1, by omega⟩, key ⟨31, by omega⟩)

/-! ## The vector-commitment interface (vc.rs)

`trait VectorCommitment` with associated types `Fr`, `Commitment`, `Proof`,
together with the two hashing helpers of utils.rs that are generic in the
same trait (`hash_to_field`, and the serializer used by `digest_commit`). -/

structure VCScheme (Fr Cm Pf : Type) where
  commitFromChildren : (Fin 256 → Fr) → Cm
  openAt : (Fin 256 → Fr) → Nat → Fr × Pf
  verifyAt : Cm → Nat → Fr → Pf → Bool
  hashToField : List Nat → Fr
  serializeCm : Cm → List Nat

/-- `ZERO_CHILD = hash_to_field(&[0u8; 32])` (utils.rs). -/
def zeroChild {Fr Cm Pf : Type} (vc : VCScheme Fr Cm Pf) : Fr :=
  vc.hashToField (List.replicate 32 0)

/-- `ZERO_VALUE = hash_to_field(&[])` (utils.rs). -/
def zeroValue {Fr Cm Pf : Type} (vc : VCScheme Fr Cm Pf) : Fr :=
  vc.hashToField []

/-- `digest_commit` (utils.rs): hash of the canonical serialization. -/
def digestCommit {Fr Cm Pf : Type} (vc : VCScheme Fr Cm Pf) (c : Cm) : Fr :=
  vc.hashToField (vc.serializeCm c)

/-! ## Nodes (node.rs) -/

/-- The `Node` enum of node.rs.  `absent` encodes the Rust `None` in
`Option<Box<Node<V>>>` child slots (and the empty tree root). -/
inductive Node (Fr : Type) : Type where
  | absent
  | internal (children : Fin 256 → Node Fr) (commitments : Fin 256 → Fr)
  | ext (stem : Stem) (slots : Fin 256 → Option Value) (slotCommitment : Fin 256 → Fr)

def Node.isAbsent {Fr : Type} : Node Fr → Bool
  | .absent => true
  | _ => false

/-! ## Commitment recomputation (vc.rs `compute_commitment`)

The Rust function mutates the node's digest array in place and returns the
commitment; the embedding returns the updated node together with the
commitment. -/

def computeCommitment {Fr Cm Pf : Type} (vc : VCScheme Fr Cm Pf) :
    Node Fr → Node Fr × Cm
  | .absent =>
      -- never reached in the source: `compute_commitment` is only invoked on
      -- an existing node; placeholder value
      (.absent, vc.commitFromChildren fun _ => zeroChild vc)
  | .internal children _ =>
      -- `compute_internal_commitment`
      let childDigests : Fin 256 → Fr := fun i =>
        if (children i).isAbsent then zeroChild vc
        else digestCommit vc (computeCommitment vc (children i)).2
      (.internal (fun i => (computeCommitment vc (children i)).1) childDigests,
        vc.commitFromChildren childDigests)
  | .ext st slots _ =>
      -- `compute_extension_commitment`
      let valueDigests : Fin 256 → Fr := fun i =>
        match slots i with
        | some v => vc.hashToField v
        | none => zeroValue vc
      (.ext st slots valueDigests, vc.commitFromChildren valueDigests)

/-! ## Extension split (node.rs `split_extension`) -/

/-- `first_diff_index` (node.rs).  The bounded `for` loop is translated to
structural recursion on the remaining iteration count `fuel`, with `i` the
current index; the source corresponds to `fuel + i = 31`, entered at
`fuel = 31, i = 0`. -/
def firstDiffIndex (a b : Stem) : Nat → Nat → Nat
  | fuel + 1, i =>
      if h : i < 31 then
        if a ⟨i, h⟩ ≠ b ⟨i, h⟩ then i else firstDiffIndex a b fuel (i + 1)
      else 31
  | 0, _ => 31

/-- The chain-building loop of `split_extension`: internal links from depth
`i` up to the fork depth `d`, then the two-extension fork.  When `d = 31`
(equal stems) the source would panic on an out-of-bounds index; that case is
unreachable (`split_extension` is only called on distinct stems) and is
modelled by an empty internal node. -/
def splitGo {Fr Cm Pf : Type} (vc : VCScheme Fr Cm Pf) (d : Nat)
    (oldStem : Stem) (oldSlots : Fin 256 → Option Value) (newStem : Stem) :
    Nat → Nat → Node Fr
  | fuel, i =>
    if h : i < d ∧ d < 31 then
      match fuel with
      | f + 1 =>
          .internal
            (Function.update (fun _ => .absent) (oldStem ⟨i, by omega⟩)
              (splitGo vc d oldStem oldSlots newStem f (i + 1)))
            (fun _ => zeroChild vc)
      | 0 => .internal (fun _ => .absent) (fun _ => zeroChild vc) -- fuel exhausted: unreachable, `fuel + i = 31 > d ≥ i`
    else if h2 : d < 31 then
      .internal
        (Function.update
          (Function.update (fun _ => .absent) (oldStem ⟨d, h2⟩)
            (.ext oldStem oldSlots fun _ => zeroValue vc))
          (newStem ⟨d, h2⟩)
          (.ext newStem (fun _ => none) fun _ => zeroValue vc))
        (fun _ => zeroChild vc)
    else
      .internal (fun _ => .absent) (fun _ => zeroChild vc)

/-- `split_extension(start_depth, old_ext, new_stem)` (node.rs). -/
def splitExtension {Fr Cm Pf : Type} (vc : VCScheme Fr Cm Pf) (startDepth : Nat)
    (oldStem : Stem) (oldSlots : Fin 256 → Option Value) (newStem : Stem) :
    Node Fr :=
  splitGo vc (firstDiffIndex oldStem newStem 31 0) oldStem oldSlots newStem
    (31 - startDepth) startDepth

/-! ## The tree and its operations (tree.rs) -/

/-- `VerkleTree { root: Option<Node<V>>, vc: V }`; `root = .absent` encodes
the empty tree (`None`). -/
structure VerkleTree (Fr Cm Pf : Type) where
  root : Node Fr
  vc : VCScheme Fr Cm Pf

/-- `VerkleTree::new`. -/
def VerkleTree.new {Fr Cm Pf : Type} (vc : VCScheme Fr Cm Pf) :
    VerkleTree Fr Cm Pf :=
  ⟨.absent, vc⟩

/-- The walking loop of `VerkleTree::get` (tree.rs 20–52).  The bounded
`for i in 0..31` loop is translated to structural recursion on the remaining
iteration count `fuel` with current depth `i` (`fuel + i = 31` at every call
from the public API); the `fuel = 0` branch is the post-loop check at
depth 31. -/
def getGo {Fr : Type} (st : Stem) (suf : Byte) : Nat → Nat → Node Fr →
    Option Value
  | fuel + 1, i, node =>
      if h : i < 31 then
        match node with
        | .absent => none
        | .internal children _ => getGo st suf fuel (i + 1) (children (st ⟨i, h⟩))
        | .ext nstem slots _ => if nstem = st then slots suf else none
      else
        match node with
        | .ext nstem slots _ => if nstem = st then slots suf else none
        | _ => none
  | 0, _, node =>
      match node with
      | .ext nstem slots _ => if nstem = st then slots suf else none
      | _ => none

/-- `VerkleTree::get`. -/
def treeGet {Fr Cm Pf : Type} (t : VerkleTree Fr Cm Pf) (k : Key) :
    Option Value :=
  getGo (splitKey k).1 (splitKey k).2 31 0 t.root

/-- The fresh single-slot extension created by `create_root` and by the
empty-child insertion arms of `insert`. -/
def freshExt {Fr Cm Pf : Type} (vc : VCScheme Fr Cm Pf) (st : Stem)
    (suf : Byte) (v : Value) : Node Fr :=
  .ext st (Function.update (fun _ => none) suf (some v)) (fun _ => zeroValue vc)

/-- The depth-31 post-loop `match node` of `VerkleTree::insert`
(tree.rs 120–163).  The branches marked `unreachable!` in the source
(panics) are modelled as no-ops; they are never taken on trees reachable by
the public API. -/
def insertLast {Fr Cm Pf : Type} (vc : VCScheme Fr Cm Pf) (st : Stem)
    (suf : Byte) (v : Value) (node : Node Fr) : Node Fr :=
  match node with
  | .ext nstem slots sc =>
      if nstem = st then .ext nstem (Function.update slots suf (some v)) sc
      else node -- source: `unreachable!("unexpected node at depth 31")`
  | .internal children comms =>
      let idx := st ⟨30, by omega⟩
      match children idx with
      | .ext nstem slots sc =>
          if nstem = st then
            .internal
              (Function.update children idx
                (.ext nstem (Function.update slots suf (some v)) sc)) comms
          else node -- source: `unreachable!("invalid shape at depth 31")`
      | .absent =>
          .internal (Function.update children idx (freshExt vc st suf v)) comms
      | .internal _ _ => node -- source: `unreachable!`
  | .absent => node

/-- The walking loop of `VerkleTree::insert` (tree.rs 73–118), as structural
recursion on the remaining iteration count (`fuel + i = 31` from the public
API). -/
def insertGo {Fr Cm Pf : Type} (vc : VCScheme Fr Cm Pf) (st : Stem)
    (suf : Byte) (v : Value) : Nat → Nat → Node Fr → Node Fr
  | fuel + 1, i, node =>
      if h : i < 31 then
        match node with
        | .internal children comms =>
            let idx := st ⟨i, h⟩
            match children idx with
            | .absent =>
                .internal (Function.update children idx (freshExt vc st suf v))
                  comms
            | _ =>
                .internal
                  (Function.update children idx
                    (insertGo vc st suf v fuel (i + 1) (children idx))) comms
        | .ext nstem slots sc =>
            if nstem = st then .ext nstem (Function.update slots suf (some v)) sc
            else
              let forked := splitExtension vc i nstem slots st
              match forked with
              | .internal ch cm =>
                  match ch (st ⟨i, h⟩) with
                  | .absent => forked -- source: `.unwrap()` panic; unreachable
                  | _ =>
                      .internal
                        (Function.update ch (st ⟨i, h⟩)
                          (insertGo vc st suf v fuel (i + 1) (ch (st ⟨i, h⟩))))
                        cm
              | _ => forked -- source: `unreachable!` panic
        | .absent => node -- the walk never reaches an absent node
      else insertLast vc st suf v node
  | 0, _, node => insertLast vc st suf v node

/-- `VerkleTree::insert`: every successful arm of the source ends by
re-running `compute_commitment` from the root. -/
def treeInsert {Fr Cm Pf : Type} (t : VerkleTree Fr Cm Pf) (k : Key)
    (v : Value) : VerkleTree Fr Cm Pf :=
  match t.root with
  | .absent =>
      -- `create_root` followed by `compute_commitment`
      { t with
        root := (computeCommitment t.vc
          (freshExt t.vc (splitKey k).1 (splitKey k).2 v)).1 }
  | r =>
      { t with
        root := (computeCommitment t.vc
          (insertGo t.vc (splitKey k).1 (splitKey k).2 v 31 0 r)).1 }

/-! ## Proofs and their generation (vc.rs `Step`/`VerkleProof`,
tree.rs `prove_get`) -/

/-- The `Step` enum of vc.rs. -/
inductive Step (Fr Cm Pf : Type) : Type where
  | internal (parentCommit : Cm) (index : Nat) (childDigest : Fr) (opening : Pf)
  | ext (extCommit : Cm) (index : Nat) (opening : Pf)
deriving DecidableEq

/-- `VerkleProof` (vc.rs). -/
structure VerkleProof (Fr Cm Pf : Type) where
  steps : List (Step Fr Cm Pf)
  value : Value
deriving DecidableEq

/-- Results of computations that can panic: `crash` marks a Rust panic
(`unwrap` on `None`, `unreachable!`, out-of-bounds indexing). -/
inductive Res (α : Type) : Type where
  | crash
  | ok (val : α)
deriving DecidableEq

/-- The depth-31 post-loop `match node` of `prove_get` (tree.rs 214–224);
this branch records the suffix as the Extension step index, and
`slots[suf].clone().unwrap()` panics (`crash`) when the suffix slot is
empty. -/
def proveLast {Fr Cm Pf : Type} (vc : VCScheme Fr Cm Pf) (st : Stem)
    (suf : Byte) (node : Node Fr) (steps : List (Step Fr Cm Pf)) :
    Res (Option (VerkleProof Fr Cm Pf)) :=
  match node with
  | .ext nstem slots sc =>
      if nstem = st then
        let extCommit := vc.commitFromChildren sc
        let opened := vc.openAt sc suf.1
        match slots suf with
        | some v => .ok (some ⟨steps ++ [Step.ext extCommit suf.1 opened.2], v⟩)
        | none => .crash -- `slots[suf].clone().unwrap()` panic
      else .crash -- source: `unreachable!("unexpected node at depth 31")`
  | _ => .crash -- source: `unreachable!("unexpected node at depth 31")`

/-- The walking loop of `VerkleTree::prove_get` (tree.rs 176–212), as
structural recursion on the remaining iteration count (`fuel + i = 31` from
the public API).  Note that inside the loop the Extension step records
`index = stem[i]` (the current stem byte), not the suffix. -/
def proveGo {Fr Cm Pf : Type} (vc : VCScheme Fr Cm Pf) (st : Stem)
    (suf : Byte) : Nat → Nat → Node Fr → List (Step Fr Cm Pf) →
    Res (Option (VerkleProof Fr Cm Pf))
  | fuel + 1, i, node, steps =>
      if h : i < 31 then
        match node with
        | .internal children comms =>
            let index := st ⟨i, h⟩
            let nodeCommit := vc.commitFromChildren comms
            let opened := vc.openAt comms index.1
            let steps' :=
              steps ++ [Step.internal nodeCommit index.1 opened.1 opened.2]
            match children index with
            | .absent => .ok none
            | _ => proveGo vc st suf fuel (i + 1) (children index) steps'
        | .ext nstem slots sc =>
            if nstem = st then
              let index := (st ⟨i, h⟩).1
              let extCommit := vc.commitFromChildren sc
              let opened := vc.openAt sc index
              match slots suf with
              | some v =>
                  .ok (some ⟨steps ++ [Step.ext extCommit index opened.2], v⟩)
              | none => .crash -- `slots[suf].clone().unwrap()` panic
            else .ok none
        | .absent => .ok none
      else proveLast vc st suf node steps
  | 0, _, node, steps => proveLast vc st suf node steps

/-- `VerkleTree::prove_get`. -/
def treeProveGet {Fr Cm Pf : Type} (t : VerkleTree Fr Cm Pf) (k : Key) :
    Res (Option (VerkleProof Fr Cm Pf)) :=
  match t.root with
  | .absent => .ok none
  | r => proveGo t.vc (splitKey k).1 (splitKey k).2 31 0 r []

/-! ## Proof verification (vc.rs `verify_proof`) -/

/-- The verification loop of `verify_proof` (vc.rs 123–163), following the
source's order of checks step by step.  `total` is `proof.steps.len()`,
`expected` is `expected_digest`, `sawExt` is `saw_extension`.  An Internal
step at position `i ≥ 31` evaluates `stem[i]` out of bounds: a panic, hence
`crash` (the bound check `i == stem.len()` of the source sits *after* the
indexing and is kept in place, unreachable). -/
def verifyGo {Fr Cm Pf : Type} [DecidableEq Fr] [DecidableEq Cm]
    (vc : VCScheme Fr Cm Pf) (rootCommit : Cm) (st : Stem) (suf : Byte)
    (value : Value) (total : Nat) (i : Nat) (expected : Option Fr)
    (sawExt : Bool) : List (Step Fr Cm Pf) → Res Bool
  | [] => .ok sawExt
  | step :: rest =>
      let commitRef : Cm :=
        match step with
        | .internal pc _ _ _ => pc
        | .ext ec _ _ => ec
      if (if i = 0 then commitRef ≠ rootCommit
          else some (digestCommit vc commitRef) ≠ expected) then .ok false
      else
        match step with
        | .internal parentCommit index childDigest opening =>
            if ¬ vc.verifyAt parentCommit index childDigest opening then .ok false
            else if h : i < 31 then
              if index ≠ (st ⟨i, h⟩).1 then .ok false
              else if i = 31 then .ok false -- `i == stem.len()`; dead under `h`
              else if i + 1 = total then .ok false
              else
                verifyGo vc rootCommit st suf value total (i + 1)
                  (some childDigest) sawExt rest
            else .crash -- `stem[i]` with `i ≥ 31`: index out of bounds panic
        | .ext extCommit index opening =>
            if index ≠ suf.1 then .ok false
            else if ¬ vc.verifyAt extCommit index (vc.hashToField value) opening then
              .ok false
            else if i + 1 ≠ total then .ok false
            else verifyGo vc rootCommit st suf value total (i + 1) none true rest

/-- `verify_proof` (vc.rs 106–167). -/
def verifyProofR {Fr Cm Pf : Type} [DecidableEq Fr] [DecidableEq Cm]
    (vc : VCScheme Fr Cm Pf) (rootCommit : Cm) (pf : VerkleProof Fr Cm Pf)
    (k : Key) : Res Bool :=
  if pf.steps.isEmpty then .ok false
  else if pf.steps.length > 31 + 1 then .ok false
  else
    verifyGo vc rootCommit (splitKey k).1 (splitKey k).2 pf.value
      pf.steps.length 0 none false pf.steps

/-! ## `commit` (spec-modelled)

`VerkleTree::commit` is called by the repository's test suite but is not
present under `src/`. -/

/-- Modelled from the spec: the missing `VerkleTree::commit` method.
Spec §4.3: "Returns the VC commitment of the root node, or a canonical
'empty' commitment if the tree is empty.  Side effect: populates/refreshes
every node's digest array."  The canonical empty commitment follows the
spec's §9 suggestion: the commitment of the all-`ZERO_CHILD` vector. -/
def treeCommit {Fr Cm Pf : Type} (t : VerkleTree Fr Cm Pf) :
    VerkleTree Fr Cm Pf × Cm :=
  match t.root with
  | .absent => (t, t.vc.commitFromChildren fun _ => zeroChild t.vc)
  | r =>
      let p := computeCommitment t.vc r
      ({ t with root := p.1 }, p.2)

/-! ## A computable, perfectly complete VC instance

Used to evaluate the tree code on concrete inputs.  The commitment to a
vector is the vector itself (perfectly binding and complete), serialization
is the identity, and `hash_to_field` is modelled by a bounded injective-on-
byte-strings rolling hash (the source's BLAKE3-mod-p hash, idealized). -/

def idealHash (bytes : List Nat) : Nat :=
  (bytes.foldl (fun a b => a * 257 + b + 1) 1) % 2 ^ 256

def idealVC : VCScheme Nat (List Nat) Unit where
  commitFromChildren := fun f => (List.finRange 256).map f
  openAt := fun f i => (if h : i < 256 then f ⟨i, h⟩ else 0, ())
  verifyAt := fun c i v _ => decide (c.get? i = some v)
  hashToField := idealHash
  serializeCm := fun c => c

/-- Building a tree by a sequence of inserts from the empty tree. -/
def buildTree {Fr Cm Pf : Type} (vc : VCScheme Fr Cm Pf)
    (l : List (Key × Value)) : VerkleTree Fr Cm Pf :=
  l.foldl (fun t kv => treeInsert t kv.1 kv.2) (VerkleTree.new vc)

/-- Tree states reachable from the empty tree by `insert` operations. -/
def Reachable {Fr Cm Pf : Type} (vc : VCScheme Fr Cm Pf)
    (t : VerkleTree Fr Cm Pf) : Prop :=
  ∃ l : List (Key × Value), buildTree vc l = t

/-! ## Observation helpers used to state claims -/

/-- The index recorded in a proof step. -/
def stepIdx {Fr Cm Pf : Type} : Step Fr Cm Pf → Nat
  | .internal _ i _ _ => i
  | .ext _ i _ => i

/-- Whether a proof step is an Extension step. -/
def stepIsExt {Fr Cm Pf : Type} : Step Fr Cm Pf → Bool
  | .internal _ _ _ _ => false
  | .ext _ _ _ => true

/-- Whether position `m` of a step list exists and holds an Internal step:
exactly the positions at which `verify_proof` reads a stem byte. -/
def isInternalAt {Fr Cm Pf : Type} (steps : List (Step Fr Cm Pf)) (m : Nat) :
    Bool :=
  match steps.get? m with
  | some (Step.internal _ _ _ _) => true
  | _ => false

/-- The recorded step indices of a successfully returned proof. -/
def stepIdxList {Fr Cm Pf : Type} :
    Res (Option (VerkleProof Fr Cm Pf)) → List Nat
  | .ok (some p) => p.steps.map stepIdx
  | _ => []

/-- Extracts the proof from a successful `prove_get` result. -/
def proofD {Fr Cm Pf : Type} :
    Res (Option (VerkleProof Fr Cm Pf)) → VerkleProof Fr Cm Pf
  | .ok (some p) => p
  | _ => ⟨[], []⟩

/-- Whether `prove_get` returned a proof. -/
def isOkSome {Fr Cm Pf : Type} : Res (Option (VerkleProof Fr Cm Pf)) → Bool
  | .ok (some _) => true
  | _ => false

/-- The root commitment after a full commitment recomputation
(`compute_commitment` on the root), `none` for the empty tree. -/
def rootCommitAfter {Fr Cm Pf : Type} (vc : VCScheme Fr Cm Pf)
    (t : VerkleTree Fr Cm Pf) : Option Cm :=
  match t.root with
  | .absent => none
  | r => some (computeCommitment vc r).2

/-- The walk of `get`/`prove_get` to the extension matching a stem,
returning its slot array: `prove_get` panics exactly when this finds an
extension whose queried suffix slot is empty. -/
def findSlots {Fr : Type} (st : Stem) : Nat → Nat → Node Fr →
    Option (Fin 256 → Option Value)
  | fuel + 1, i, node =>
      if h : i < 31 then
        match node with
        | .absent => none
        | .internal children _ => findSlots st fuel (i + 1) (children (st ⟨i, h⟩))
        | .ext nstem slots _ => if nstem = st then some slots else none
      else
        match node with
        | .ext nstem slots _ => if nstem = st then some slots else none
        | _ => none
  | 0, _, node =>
      match node with
      | .ext nstem slots _ => if nstem = st then some slots else none
      | _ => none

/-- A degenerate (yet interface-conforming) vector commitment over `Unit`:
every opening verifies.  Used to exhibit verifier behaviour that holds for
*some* VC instance when a claim quantifies over all of them. -/
def trivVC : VCScheme Unit Unit Unit where
  commitFromChildren := fun _ => ()
  openAt := fun _ _ => ((), ())
  verifyAt := fun _ _ _ _ => true
  hashToField := fun _ => ()
  serializeCm := fun _ => []

/-! ## Concrete example data -/

/-- The all-zero key. -/
def zeroKey : Key := fun _ => 0

/-- Key with stem bytes all `0x01` and suffix `0x02` (the repository's own
`verify_single_key` test input). -/
def exKeyA : Key := fun i => if (i : Nat) = 31 then 2 else 1

/-- Same stem as `exKeyA`, different (never-inserted) suffix `0x09`. -/
def exKeyA9 : Key := fun i => if (i : Nat) = 31 then 9 else 1

/-- A single-key tree over the ideal VC. -/
def exTreeA : VerkleTree Nat (List Nat) Unit :=
  buildTree idealVC [(exKeyA, [3, 4, 5])]

/-- Key with all-zero stem and suffix 0. -/
def exKeyB : Key := zeroKey

/-- Key whose stem differs from `exKeyB`'s at byte 0 only; suffix `0x06`. -/
def exKeyB' : Key := fun i =>
  if (i : Nat) = 0 then 1 else if (i : Nat) = 31 then 6 else 0

/-- Forged key: stem agrees with `exKeyB`'s on the committed prefix (byte 0)
and on the suffix, but differs at the uncommitted stem byte 5. -/
def exKeyBf : Key := fun i => if (i : Nat) = 5 then 7 else 0

/-- Forged key: stem agrees with `exKeyB`'s on the committed prefix (byte 0)
and shares the suffix, but differs at stem byte 1 — the first uncommitted
byte, i.e. exactly at position p (the number of Internal steps of the honest
proof for `exKeyB` in `exTreeB`). -/
def exKeyBp : Key := fun i => if (i : Nat) = 1 then 9 else 0

/-- A two-stem tree (fork at depth 0, extensions at depth 1). -/
def exTreeB : VerkleTree Nat (List Nat) Unit :=
  buildTree idealVC [(exKeyB, [1, 2, 3]), (exKeyB', [4, 5, 6])]

/-- The slot array of the single extension of `exTreeA`. -/
def exSlotsA : Fin 256 → Option Value :=
  Function.update (fun _ => none) (2 : Fin 256) (some [3, 4, 5])

/-- The two-element insertion lists of the duplicate-key counterexample. -/
def exDupA : List (Key × Value) := [(exKeyB, [0]), (exKeyB, [1])]

def exDupB : List (Key × Value) := [(exKeyB, [1]), (exKeyB, [0])]

/-- A 32-step all-Internal proof: every check the verifier performs before
reaching `stem[31]` passes under `trivVC`. -/
def exLongSteps : List (Step Unit Unit Unit) :=
  List.replicate 32 (Step.internal () 0 () ())

/-- Key with stem bytes all `0x01` and suffix `0x01`. -/
def exKeyC6a : Key := fun _ => 1

/-- Key whose stem differs from `exKeyC6a`'s at byte 30 only (the last stem
byte); same suffix. -/
def exKeyC6b : Key := fun i => if (i : Nat) = 30 then 2 else 1

/-- Two-element distinct-key insertion lists that are permutations of each
other. -/
def exPermA : List (Key × Value) := [(exKeyB, [1]), (exKeyB', [2])]

def exPermB : List (Key × Value) := [(exKeyB', [2]), (exKeyB, [1])]

/-! ## Proof-side notions: structure stripping, path invariants, builders -/

/-- Forgets the commitment arrays of every node (they are recomputed in full
by `compute_commitment`, so equal-stripped nodes get equal commitments). -/
def strip {Fr : Type} : Node Fr → Node Unit
  | .absent => .absent
  | .internal children _ => .internal (fun b => strip (children b)) (fun _ => ())
  | .ext st slots _ => .ext st slots (fun _ => ())

/-- The stems of all extension nodes in a subtree, in child-index order. -/
def extStems {Fr : Type} : Node Fr → List Stem
  | .absent => []
  | .internal children _ => (List.finRange 256).flatMap (fun b => extStems (children b))
  | .ext st _ _ => [st]

/-- `Agr s t i`: the stems `s` and `t` agree strictly below index `i`. -/
def Agr (s t : Stem) (i : Nat) : Prop :=
  ∀ j : Fin 31, (j : Nat) < i → s j = t j

/-- The path `q` extended by setting byte `i` to `b`. -/
def pathUpd (q : Stem) (i : Nat) (b : Byte) : Stem :=
  fun j => if (j : Nat) = i then b else q j

/-- Well-formedness of a node sitting at depth `i` whose access path from
the root spells `q` below `i`: every extension's stem agrees with its path,
extensions sit at depth ≤ 31 and internals at depth ≤ 30 (spec §3,
invariant 2).  Holds for every reachable tree. -/
inductive WF {Fr : Type} : Nat → Stem → Node Fr → Prop where
  | absent : ∀ {i q}, WF i q .absent
  | ext : ∀ {i q st sl sc}, Agr st q i → i ≤ 31 → WF i q (.ext st sl sc)
  | internal : ∀ {i q ch cm}, i ≤ 30 →
      (∀ b : Byte, WF (i + 1) (pathUpd q i b) (ch b)) →
      WF i q (.internal ch cm)

/-- Proof-side generalization of the split result: the fork's fresh
extension carries slot array `newSl` (the split itself creates it empty and
the continuing insert walk immediately writes into it). -/
def splitBuild {Fr Cm Pf : Type} (vc : VCScheme Fr Cm Pf) (d : Nat)
    (oldStem : Stem) (oldSlots : Fin 256 → Option Value) (newStem : Stem)
    (newSlots : Fin 256 → Option Value) : Nat → Nat → Node Fr
  | fuel, i =>
    if h : i < d ∧ d < 31 then
      match fuel with
      | f + 1 =>
          .internal
            (Function.update (fun _ => .absent) (oldStem ⟨i, by omega⟩)
              (splitBuild vc d oldStem oldSlots newStem newSlots f (i + 1)))
            (fun _ => zeroChild vc)
      | 0 => .internal (fun _ => .absent) (fun _ => zeroChild vc)
    else if h2 : d < 31 then
      .internal
        (Function.update
          (Function.update (fun _ => .absent) (oldStem ⟨d, h2⟩)
            (.ext oldStem oldSlots fun _ => zeroValue vc))
          (newStem ⟨d, h2⟩)
          (.ext newStem newSlots fun _ => zeroValue vc))
        (fun _ => zeroChild vc)
    else
      .internal (fun _ => .absent) (fun _ => zeroChild vc)

/-- The first index at which two stems differ (31 when equal): the
source-level `first_diff_index(old, new)` entry point. -/
def fd (a b : Stem) : Nat := firstDiffIndex a b 31 0

/-- A single-entry slot array. -/
def oneSlot (u : Byte) (v : Value) : Fin 256 → Option Value :=
  Function.update (fun _ => none) u (some v)

/-- The root-level insertion step of `VerkleTree::insert` before the final
commitment recomputation: `create_root` on the empty tree, the walk
otherwise. -/
def insRoot {Fr Cm Pf : Type} (vc : VCScheme Fr Cm Pf) (k : Key) (v : Value) :
    Node Fr → Node Fr
  | .absent => freshExt vc (splitKey k).1 (splitKey k).2 v
  | r => insertGo vc (splitKey k).1 (splitKey k).2 v 31 0 r

/-- The action of the insert walk on one child slot: create a fresh
extension in an empty slot, recurse otherwise (the two `match children idx`
arms of tree.rs 77–87). -/
def insChild {Fr Cm Pf : Type} (vc : VCScheme Fr Cm Pf) (s : Stem) (u : Byte)
    (v : Value) (f i : Nat) : Node Fr → Node Fr
  | .absent => freshExt vc s u v
  | c => insertGo vc s u v f (i + 1) c

end Verkle

/-! # Theorems -/

namespace Verkle2Proofs
end Verkle2Proofs

namespace Verkle

/-- Helper: `findSlots` on an absent node is `none`. -/
theorem findSlots_absent {Fr : Type} (st : Stem) :
    ∀ (fuel i : Nat), findSlots st fuel i (Node.absent : Node Fr) = none := by
  intro fuel i
  cases fuel with
  | zero => rfl
  | succ f => by_cases h : i < 31 <;> simp [findSlots, h]

/-- Helper: whenever the stem walk reaches an extension matching the queried
stem whose queried suffix slot is empty, the `prove_get` walk panics
(`unwrap` on `None`), at every depth. -/
theorem proveGo_crash_of_findSlots {Fr Cm Pf : Type} (vc : VCScheme Fr Cm Pf)
    (st : Stem) (suf : Byte) :
    ∀ (fuel i : Nat) (node : Node Fr) (steps : List (Step Fr Cm Pf))
      (sl : Fin 256 → Option Value),
      findSlots st fuel i node = some sl → sl suf = none →
      proveGo vc st suf fuel i node steps = .crash := by
  intro fuel
  induction fuel with
  | zero =>
      intro i node steps sl hf he
      cases node with
      | absent => simp [findSlots] at hf
      | internal ch cm => simp [findSlots] at hf
      | ext nstem slots sc =>
          simp only [findSlots] at hf
          by_cases hs : nstem = st
          · subst hs
            rw [if_pos rfl] at hf
            obtain rfl := Option.some.inj hf
            simp [proveGo, proveLast, he]
          · simp [hs] at hf
  | succ f ih =>
      intro i node steps sl hf he
      by_cases hi : i < 31
      · cases node with
        | absent => simp [findSlots, hi] at hf
        | internal ch cm =>
            simp only [findSlots, dif_pos hi] at hf
            have hrec := ih (i + 1) (ch (st ⟨i, hi⟩)) (steps ++
              [Step.internal (vc.commitFromChildren cm) (st ⟨i, hi⟩).1
                (vc.openAt cm (st ⟨i, hi⟩).1).1 (vc.openAt cm (st ⟨i, hi⟩).1).2])
              sl hf he
            simp only [proveGo, dif_pos hi]
            cases hc : ch (st ⟨i, hi⟩) with
            | absent => rw [hc, findSlots_absent] at hf; cases hf
            | internal ch2 cm2 => rw [hc] at hrec; exact hrec
            | ext st2 sl2 sc2 => rw [hc] at hrec; exact hrec
        | ext nstem slots sc =>
            simp only [findSlots, dif_pos hi] at hf
            by_cases hs : nstem = st
            · subst hs
              rw [if_pos rfl] at hf
              obtain rfl := Option.some.inj hf
              simp [proveGo, hi, he]
            · simp [hs] at hf
      · cases node with
        | absent => simp [findSlots, hi] at hf
        | internal ch cm => simp [findSlots, hi] at hf
        | ext nstem slots sc =>
            simp only [findSlots, dif_neg hi] at hf
            by_cases hs : nstem = st
            · subst hs
              rw [if_pos rfl] at hf
              obtain rfl := Option.some.inj hf
              simp [proveGo, hi, proveLast, he]
            · simp [hs] at hf




/-- C10: if the tree contains (on the queried stem's walk) an Extension node
whose stem matches the queried key's stem but whose suffix slot is empty,
`prove_get` panics (it unwraps the absent slot value) instead of returning
absent — at every depth at which the Extension can be encountered, for every
tree and VC. -/
theorem C10_proveGet_panics_on_empty_slot {Fr Cm Pf : Type}
    (t : VerkleTree Fr Cm Pf) (k : Key)
    (sl : Fin 256 → Option Value)
    (hf : findSlots (splitKey k).1 31 0 t.root = some sl)
    (he : sl (splitKey k).2 = none) :
    treeProveGet t k = .crash := by
  unfold treeProveGet
  cases ht : t.root with
  | absent => rw [ht, findSlots_absent] at hf; cases hf
  | internal ch cm =>
      rw [ht] at hf
      exact proveGo_crash_of_findSlots t.vc _ _ 31 0 _ [] sl hf he
  | ext nstem slots sc =>
      rw [ht] at hf
      exact proveGo_crash_of_findSlots t.vc _ _ 31 0 _ [] sl hf he

/-- Witness for C10: in the single-key tree (stem `0x01…01`, populated
suffix `0x02`), querying the same stem at the empty suffix slot `0x09`
makes `prove_get` panic. -/
theorem C10_witness :
    findSlots (splitKey exKeyA9).1 31 0 exTreeA.root = some exSlotsA ∧
    exSlotsA (splitKey exKeyA9).2 = none ∧
    treeProveGet exTreeA exKeyA9 = .crash :=
  ⟨by decide, by decide,
    C10_proveGet_panics_on_empty_slot exTreeA exKeyA9 exSlotsA
      (by decide) (by decide)⟩

/-- C1 (claim refuted by evaluation): in the tree holding exactly the
inserted key `exKeyA` (stem bytes `0x01`, suffix `0x02` — the repository's
own `verify_single_key` test input), `prove_get` succeeds but the verifier
REJECTS the honestly generated proof: the claim (and the repository's test)
say it must accept.  The root cause is that `prove_get` records
`index = stem[0] = 1` in the terminal Extension step while `verify_proof`
requires `index == suffix = 2`. -/
theorem C1_completeness_fails_on_code :
    isOkSome (treeProveGet exTreeA exKeyA) = true ∧
    verifyProofR idealVC (treeCommit exTreeA).2
      (proofD (treeProveGet exTreeA exKeyA)) exKeyA = .ok false :=
  ⟨by decide, by decide⟩

/-- C2 (claim refuted by evaluation): the terminal Extension step emitted by
`prove_get` for `exKeyA` (extension at depth 0, i.e. root extension) has
index `1 = stem[0]`, not the key's suffix `2`, contradicting the claim that
the index equals the suffix at every depth `0..31`. -/
theorem C2_ext_step_index_is_stem_byte :
    (proofD (treeProveGet exTreeA exKeyA)).steps.map stepIsExt = [true] ∧
    stepIdxList (treeProveGet exTreeA exKeyA) = [1] ∧
    ((splitKey exKeyA).2 : Nat) = 2 :=
  ⟨by decide, by decide, by decide⟩

/-- C8 (claim refuted by evaluation): a 32-step candidate proof whose last
step is Internal makes `verify_proof` PANIC (`stem[31]` is indexed out of
bounds before the `i == stem.len()` guard runs) instead of returning
`false`, under a VC instance for which every prior check passes. -/
theorem C8_verify_panics_on_32_internal_steps :
    verifyProofR trivVC () ⟨exLongSteps, []⟩ zeroKey = .crash := by decide

/-- Helper: the verification loop reads the key only through the suffix and
the stem bytes at the positions of the Internal steps it processes (the
Extension arm never reads a stem byte). -/
theorem verifyGo_locality {Fr Cm Pf : Type} [DecidableEq Fr] [DecidableEq Cm]
    (vc : VCScheme Fr Cm Pf) (rc : Cm) (st st' : Stem) (suf : Byte)
    (value : Value) (total : Nat) :
    ∀ (steps : List (Step Fr Cm Pf)) (i : Nat) (expected : Option Fr)
      (sawExt : Bool),
      (∀ m : Nat, isInternalAt steps m = true →
        ∀ hj : i + m < 31, st ⟨i + m, hj⟩ = st' ⟨i + m, hj⟩) →
      verifyGo vc rc st suf value total i expected sawExt steps =
        verifyGo vc rc st' suf value total i expected sawExt steps := by
  intro steps
  induction steps with
  | nil => intro i e s _; rfl
  | cons step rest ih =>
      intro i e s hag
      have hstep : ∀ m : Nat, isInternalAt rest m = true →
          ∀ hj : (i + 1) + m < 31,
            st ⟨(i + 1) + m, hj⟩ = st' ⟨(i + 1) + m, hj⟩ := by
        intro m hm hj
        have hje : (⟨(i + 1) + m, hj⟩ : Fin 31) = ⟨i + (m + 1), by omega⟩ :=
          Fin.ext (show (i + 1) + m = i + (m + 1) by omega)
        rw [hje]
        exact hag (m + 1) hm (by omega)
      cases step with
      | internal pc idx cd op =>
          simp only [verifyGo]
          by_cases hi : i < 31
          · simp only [dif_pos hi]
            have hb : st ⟨i, hi⟩ = st' ⟨i, hi⟩ := hag 0 rfl hi
            rw [hb, ih (i + 1) (some cd) s hstep]
          · simp only [dif_neg hi]
      | ext ec idx op =>
          simp only [verifyGo]
          rw [ih (i + 1) none true hstep]

/-- C3 amended: `verify_proof`'s result depends on the key only through its
suffix and the stem bytes at the positions of the proof's Internal steps.
For an honest proof with `p` Internal steps followed by the terminal
Extension step these positions are `0..p-1` (the committed prefix), so the
proof verifies with the *same* result against any `k'` that shares the
suffix and the committed stem prefix `stem[0..p-1]` and differs anywhere in
`stem[p..31]` — including at byte `p` itself, which the Extension step never
reads.  Such forged keys are accepted whenever the honest key is, rather
than rejected. -/
theorem C3_amended_verify_ignores_uncommitted_stem {Fr Cm Pf : Type}
    [DecidableEq Fr] [DecidableEq Cm] (vc : VCScheme Fr Cm Pf) (rc : Cm)
    (pf : VerkleProof Fr Cm Pf) (k k' : Key)
    (hsuf : (splitKey k).2 = (splitKey k').2)
    (hstem : ∀ j : Fin 31, isInternalAt pf.steps (j : Nat) = true →
      (splitKey k).1 j = (splitKey k').1 j) :
    verifyProofR vc rc pf k = verifyProofR vc rc pf k' := by
  unfold verifyProofR
  rw [hsuf]
  by_cases h1 : pf.steps.isEmpty
  · simp [h1]
  · by_cases h2 : pf.steps.length > 31 + 1
    · simp [h1, h2]
    · simp only [h1, h2, if_neg, Bool.false_eq_true]
      exact verifyGo_locality vc rc _ _ _ _ _ pf.steps 0 none false
        (fun m hm hj => by
          have hje : (⟨0 + m, hj⟩ : Fin 31) = ⟨m, by omega⟩ :=
            Fin.ext (show 0 + m = m by omega)
          rw [hje]
          exact hstem ⟨m, by omega⟩ hm)

/-- Witness for the amended C3 theorem, at the two-stem example tree: the
honest proof for `exKeyB` has p = 1 Internal step (committed prefix length
1), and it verifies identically for the forged key `exKeyBp` that differs
from `exKeyB` exactly at the first uncommitted stem byte p = 1. -/
theorem C3_amended_witness :
    (splitKey exKeyB).2 = (splitKey exKeyBp).2 ∧
    (∀ j : Fin 31,
      isInternalAt (proofD (treeProveGet exTreeB exKeyB)).steps (j : Nat) =
        true →
      (splitKey exKeyB).1 j = (splitKey exKeyBp).1 j) ∧
    (splitKey exKeyB).1 ⟨1, by omega⟩ ≠ (splitKey exKeyBp).1 ⟨1, by omega⟩ ∧
    verifyProofR idealVC (treeCommit exTreeB).2
        (proofD (treeProveGet exTreeB exKeyB)) exKeyB =
      verifyProofR idealVC (treeCommit exTreeB).2
        (proofD (treeProveGet exTreeB exKeyB)) exKeyBp :=
  ⟨by decide, by decide, by decide,
    C3_amended_verify_ignores_uncommitted_stem idealVC (treeCommit exTreeB).2
      (proofD (treeProveGet exTreeB exKeyB)) exKeyB exKeyBp (by decide)
      (by decide)⟩

/-- C3 counterexample: the claim "the proof must FAIL against any k' sharing
the committed prefix and suffix but differing in stem[p..31]" is false on
the code.  In the two-stem tree `exTreeB` the honest proof for `exKeyB` has
committed prefix length p = 1 (one Internal step), and it VERIFIES against
the distinct forged key `exKeyBf` that agrees on stem byte 0 and the suffix
and differs at stem byte 5. -/
theorem C3_counterexample_forged_key_accepted :
    (splitKey exKeyBf).1 ⟨0, by omega⟩ = (splitKey exKeyB).1 ⟨0, by omega⟩ ∧
    (splitKey exKeyBf).2 = (splitKey exKeyB).2 ∧
    (splitKey exKeyBf).1 ⟨5, by omega⟩ ≠ (splitKey exKeyB).1 ⟨5, by omega⟩ ∧
    (proofD (treeProveGet exTreeB exKeyB)).steps.map stepIsExt =
      [false, true] ∧
    verifyProofR idealVC (treeCommit exTreeB).2
      (proofD (treeProveGet exTreeB exKeyB)) exKeyBf = .ok true :=
  ⟨by decide, by decide, by decide, by decide, by decide⟩

/-- C7 counterexample: inserting the same key-value *multiset*
`{(k, [0]), (k, [1])}` (a duplicated key) in its two insertion orders yields
different root commitments after recomputation, refuting the claim as
stated for multisets that repeat a key. -/
theorem C7_counterexample_duplicate_key_order_matters :
    exDupA.Perm exDupB ∧
    rootCommitAfter idealVC (buildTree idealVC exDupA) ≠
      rootCommitAfter idealVC (buildTree idealVC exDupB) :=
  ⟨List.Perm.swap _ _ _, by decide⟩

/-! ## Basic facts about the walks and the split builders -/

theorem getGo_absent {Fr : Type} (st : Stem) (suf : Byte) :
    ∀ fuel i, getGo st suf fuel i (Node.absent : Node Fr) = none := by
  intro fuel i
  cases fuel with
  | zero => rfl
  | succ f => by_cases h : i < 31 <;> simp [getGo, h]

/-- Inserting a key whose stem matches the extension updates the suffix slot
(at every depth / fuel). -/
theorem insertGo_ext_match {Fr Cm Pf : Type} (vc : VCScheme Fr Cm Pf)
    (s : Stem) (u : Byte) (v : Value) (sl : Fin 256 → Option Value)
    (sc : Fin 256 → Fr) :
    ∀ fuel i, insertGo vc s u v fuel i (.ext s sl sc) =
      .ext s (Function.update sl u (some v)) sc := by
  intro fuel i
  cases fuel with
  | zero => simp [insertGo, insertLast]
  | succ f =>
      by_cases h : i < 31
      · simp [insertGo, h]
      · simp [insertGo, h, insertLast]

/-- Matching-stem lookup on an extension node. -/
theorem getGo_ext_match {Fr : Type} (s : Stem) (u : Byte)
    (sl : Fin 256 → Option Value) (sc : Fin 256 → Fr) :
    ∀ fuel i, getGo s u fuel i (.ext s sl sc : Node Fr) = sl u := by
  intro fuel i
  cases fuel with
  | zero => simp [getGo]
  | succ f => by_cases h : i < 31 <;> simp [getGo, h]

/-- The fuel-general specification of `first_diff_index`. -/
theorem firstDiffIndex_spec (a b : Stem) :
    ∀ fuel i, fuel + i = 31 →
      i ≤ firstDiffIndex a b fuel i ∧ firstDiffIndex a b fuel i ≤ 31 ∧
      (∀ j : Fin 31, i ≤ (j : Nat) → (j : Nat) < firstDiffIndex a b fuel i →
        a j = b j) ∧
      (∀ h : firstDiffIndex a b fuel i < 31,
        a ⟨firstDiffIndex a b fuel i, h⟩ ≠ b ⟨firstDiffIndex a b fuel i, h⟩) := by
  intro fuel
  induction fuel with
  | zero =>
      intro i hi
      have : i = 31 := by omega
      subst this
      refine ⟨le_refl _, le_refl _, ?_, ?_⟩
      · intro j h1 h2
        simp [firstDiffIndex] at *
        omega
      · intro h
        simp [firstDiffIndex] at h
  | succ f ih =>
      intro i hi
      have hlt : i < 31 := by omega
      by_cases hne : a ⟨i, hlt⟩ ≠ b ⟨i, hlt⟩
      · have heq : firstDiffIndex a b (f + 1) i = i := by
          simp [firstDiffIndex, hlt, hne]
        rw [heq]
        refine ⟨le_refl _, by omega, ?_, ?_⟩
        · intro j h1 h2; omega
        · intro h
          exact hne
      · have heq : firstDiffIndex a b (f + 1) i = firstDiffIndex a b f (i + 1) := by
          simp only [firstDiffIndex, dif_pos hlt]
          rw [if_neg hne]
        have hrec := ih (i + 1) (by omega)
        rw [heq]
        push_neg at hne
        refine ⟨by omega, hrec.2.1, ?_, hrec.2.2.2⟩
        · intro j h1 h2
          by_cases hj : (j : Nat) = i
          · have : j = ⟨i, hlt⟩ := Fin.ext hj
            rw [this]; exact hne
          · exact hrec.2.2.1 j (by omega) h2

theorem fd_le31 (a b : Stem) : fd a b ≤ 31 :=
  (firstDiffIndex_spec a b 31 0 rfl).2.1

theorem fd_agree (a b : Stem) : ∀ j : Fin 31, (j : Nat) < fd a b → a j = b j :=
  fun j hj => (firstDiffIndex_spec a b 31 0 rfl).2.2.1 j (Nat.zero_le _) hj

theorem fd_diff (a b : Stem) : ∀ h : fd a b < 31, a ⟨fd a b, h⟩ ≠ b ⟨fd a b, h⟩ :=
  (firstDiffIndex_spec a b 31 0 rfl).2.2.2

theorem fd_lt31_of_ne {a b : Stem} (h : a ≠ b) : fd a b < 31 := by
  by_contra hge
  apply h
  funext j
  exact fd_agree a b j (by omega)

theorem fd_ge_of_agr {a b : Stem} {i : Nat} (hi : i ≤ 31) (h : Agr a b i) :
    i ≤ fd a b := by
  by_contra hlt
  push_neg at hlt
  have h31 : fd a b < 31 := by omega
  exact fd_diff a b h31 (h ⟨fd a b, h31⟩ hlt)

theorem firstDiffIndex_symm (a b : Stem) :
    ∀ fuel i, firstDiffIndex a b fuel i = firstDiffIndex b a fuel i := by
  intro fuel
  induction fuel with
  | zero => intro i; rfl
  | succ f ih =>
      intro i
      by_cases hlt : i < 31
      · simp only [firstDiffIndex, dif_pos hlt, ih (i + 1)]
        congr 1
        simp [ne_comm, eq_comm]
      · simp [firstDiffIndex, hlt]

theorem fd_symm (a b : Stem) : fd a b = fd b a := firstDiffIndex_symm a b 31 0

/-- `split_extension` is `splitBuild` with an empty fresh-extension slot
array. -/
theorem splitGo_eq_splitBuild {Fr Cm Pf : Type} (vc : VCScheme Fr Cm Pf)
    (d : Nat) (o : Stem) (so : Fin 256 → Option Value) (n : Stem) :
    ∀ fuel i, splitGo vc d o so n fuel i =
      splitBuild vc d o so n (fun _ => none) fuel i := by
  intro fuel
  induction fuel with
  | zero =>
      intro i
      rw [splitGo, splitBuild]
  | succ f ih =>
      intro i
      rw [splitGo, splitBuild]
      by_cases h : i < d ∧ d < 31
      · simp only [dif_pos h, ih (i + 1)]
      · simp only [dif_neg h]

theorem splitExtension_eq {Fr Cm Pf : Type} (vc : VCScheme Fr Cm Pf)
    (i : Nat) (o : Stem) (so : Fin 256 → Option Value) (n : Stem) :
    splitExtension vc i o so n =
      splitBuild vc (fd o n) o so n (fun _ => none) (31 - i) i := by
  rw [splitExtension, splitGo_eq_splitBuild]
  rfl

/-- Chain-link unfolding of `splitBuild` below the fork depth. -/
theorem splitBuild_lt {Fr Cm Pf : Type} (vc : VCScheme Fr Cm Pf) {d i : Nat}
    (o : Stem) (so : Fin 256 → Option Value) (n : Stem)
    (sn : Fin 256 → Option Value) (f : Nat) (h1 : i < d) (h2 : d < 31) :
    splitBuild vc d o so n sn (f + 1) i =
      .internal
        (Function.update (fun _ => .absent) (o ⟨i, by omega⟩)
          (splitBuild vc d o so n sn f (i + 1)))
        (fun _ => zeroChild vc) := by
  rw [splitBuild]
  rw [dif_pos ⟨h1, h2⟩]

/-- Fork unfolding of `splitBuild` at the fork depth. -/
theorem splitBuild_fork {Fr Cm Pf : Type} (vc : VCScheme Fr Cm Pf) {d i : Nat}
    (o : Stem) (so : Fin 256 → Option Value) (n : Stem)
    (sn : Fin 256 → Option Value) (fuel : Nat) (h1 : ¬ i < d) (h2 : d < 31) :
    splitBuild vc d o so n sn fuel i =
      .internal
        (Function.update
          (Function.update (fun _ => .absent) (o ⟨d, h2⟩)
            (.ext o so fun _ => zeroValue vc))
          (n ⟨d, h2⟩) (.ext n sn fun _ => zeroValue vc))
        (fun _ => zeroChild vc) := by
  rw [splitBuild]
  rw [dif_neg (by intro hc; exact h1 hc.1), dif_pos h2]

theorem splitBuild_internal {Fr Cm Pf : Type} (vc : VCScheme Fr Cm Pf)
    (d : Nat) (o : Stem) (so : Fin 256 → Option Value) (n : Stem)
    (sn : Fin 256 → Option Value) :
    ∀ fuel i, ∃ ch cm, splitBuild vc d o so n sn fuel i = .internal ch cm := by
  intro fuel i
  rw [splitBuild]
  by_cases h : i < d ∧ d < 31
  · rw [dif_pos h]
    cases fuel with
    | zero => exact ⟨_, _, rfl⟩
    | succ f => exact ⟨_, _, rfl⟩
  · rw [dif_neg h]
    by_cases h2 : d < 31
    · rw [dif_pos h2]; exact ⟨_, _, rfl⟩
    · rw [dif_neg h2]; exact ⟨_, _, rfl⟩

/-- Inserting the *new* stem into a split structure fills the fresh
extension's slot. -/
theorem insertGo_splitBuild_new {Fr Cm Pf : Type} (vc : VCScheme Fr Cm Pf)
    (o : Stem) (so : Fin 256 → Option Value) (s2 : Stem) (u : Byte)
    (v : Value) :
    ∀ fuel i (nsl : Fin 256 → Option Value) (d : Nat), fuel + i = 31 →
      i ≤ d → d < 31 →
      (∀ j : Fin 31, i ≤ (j : Nat) → (j : Nat) < d → o j = s2 j) →
      insertGo vc s2 u v fuel i (splitBuild vc d o so s2 nsl fuel i) =
        splitBuild vc d o so s2 (Function.update nsl u (some v)) fuel i := by
  intro fuel
  induction fuel with
  | zero => intro i nsl d hf hid hd hag; omega
  | succ f ih =>
      intro i nsl d hf hid hd hag
      have hi31 : i < 31 := by omega
      by_cases hidlt : i < d
      · rw [splitBuild_lt vc o so s2 nsl f hidlt hd,
            splitBuild_lt vc o so s2 (Function.update nsl u (some v)) f hidlt hd]
        have hb : (o ⟨i, by omega⟩ : Byte) = s2 ⟨i, by omega⟩ :=
          hag ⟨i, hi31⟩ (le_refl _) hidlt
        obtain ⟨ch2, cm2, hsb⟩ := splitBuild_internal vc d o so s2 nsl f (i + 1)
        rw [hb, hsb]
        simp only [insertGo, dif_pos hi31, Function.update_same]
        rw [← hsb, ih (i + 1) nsl d (by omega) (by omega) hd
          (fun j h1 h2 => hag j (by omega) h2)]
        rw [Function.update_idem]
      · have hieq : ¬ i < d := hidlt
        rw [splitBuild_fork vc o so s2 nsl (f + 1) hieq hd,
            splitBuild_fork vc o so s2 (Function.update nsl u (some v)) (f + 1)
              hieq hd]
        have hdi : d = i := by omega
        subst hdi
        simp only [insertGo, dif_pos hi31, Function.update_same,
          insertGo_ext_match, Function.update_idem]

/-- Inserting the *old* stem into a split structure updates the relocated
extension's slot. -/
theorem insertGo_splitBuild_old {Fr Cm Pf : Type} (vc : VCScheme Fr Cm Pf)
    (o : Stem) (so : Fin 256 → Option Value) (s2 : Stem) (u : Byte)
    (v : Value) :
    ∀ fuel i (nsl : Fin 256 → Option Value) (d : Nat), fuel + i = 31 →
      i ≤ d → (hd : d < 31) → o ⟨d, hd⟩ ≠ s2 ⟨d, hd⟩ →
      insertGo vc o u v fuel i (splitBuild vc d o so s2 nsl fuel i) =
        splitBuild vc d o (Function.update so u (some v)) s2 nsl fuel i := by
  intro fuel
  induction fuel with
  | zero => intro i nsl d hf hid hd hb; omega
  | succ f ih =>
      intro i nsl d hf hid hd hb
      have hi31 : i < 31 := by omega
      by_cases hidlt : i < d
      · rw [splitBuild_lt vc o so s2 nsl f hidlt hd,
            splitBuild_lt vc o (Function.update so u (some v)) s2 nsl f hidlt hd]
        obtain ⟨ch2, cm2, hsb⟩ := splitBuild_internal vc d o so s2 nsl f (i + 1)
        rw [hsb]
        simp only [insertGo, dif_pos hi31, Function.update_same]
        rw [← hsb, ih (i + 1) nsl d (by omega) (by omega) hd hb]
        rw [Function.update_idem]
      · have hieq : ¬ i < d := hidlt
        rw [splitBuild_fork vc o so s2 nsl (f + 1) hieq hd,
            splitBuild_fork vc o (Function.update so u (some v)) s2 nsl (f + 1)
              hieq hd]
        have hdi : d = i := by omega
        subst hdi
        simp only [insertGo, dif_pos hi31, Function.update_noteq hb,
          Function.update_same]
        rw [insertGo_ext_match]
        rw [Function.update_comm (Ne.symm hb), Function.update_idem]

/-- Inserting a key whose stem differs from the extension's stem replaces it
by the split structure, with the incoming value written into the fresh
extension's suffix slot. -/
theorem insertGo_ext_split {Fr Cm Pf : Type} (vc : VCScheme Fr Cm Pf)
    (s : Stem) (u : Byte) (v : Value) (st' : Stem)
    (sl' : Fin 256 → Option Value) (sc' : Fin 256 → Fr) (fuel i : Nat)
    (hf : fuel + i = 31) (hne : st' ≠ s) (hile : i ≤ fd st' s) :
    insertGo vc s u v fuel i (.ext st' sl' sc') =
      splitBuild vc (fd st' s) st' sl' s (oneSlot u v) fuel i := by
  have hd31 : fd st' s < 31 := fd_lt31_of_ne hne
  have hagr := fd_agree st' s
  have hdiff := fd_diff st' s
  obtain ⟨D, hD⟩ : ∃ D, fd st' s = D := ⟨_, rfl⟩
  rw [hD] at hd31 hagr hdiff hile ⊢
  have hi31 : i < 31 := by omega
  obtain ⟨f, rfl⟩ : ∃ f, fuel = f + 1 := ⟨fuel - 1, by omega⟩
  have hfe : 31 - i = f + 1 := by omega
  simp only [insertGo, dif_pos hi31, if_neg hne]
  rw [splitExtension_eq, hD, hfe]
  by_cases hlt : i < D
  · rw [splitBuild_lt vc st' sl' s (fun _ => none) f hlt hd31]
    have hb : (st' ⟨i, by omega⟩ : Byte) = s ⟨i, by omega⟩ :=
      hagr ⟨i, hi31⟩ hlt
    obtain ⟨ch2, cm2, hsb⟩ :=
      splitBuild_internal vc D st' sl' s (fun _ => none) f (i + 1)
    rw [hb, hsb]
    simp only [Function.update_same]
    rw [← hsb, insertGo_splitBuild_new vc st' sl' s u v f (i + 1)
      (fun _ => none) D (by omega) (by omega) hd31
      (fun j _ h2 => hagr j h2)]
    rw [Function.update_idem]
    rw [splitBuild_lt vc st' sl' s (oneSlot u v) f hlt hd31, hb]
    rfl
  · have hdeq : D = i := by omega
    subst hdeq
    rw [splitBuild_fork vc st' sl' s (fun _ => none) (f + 1) hlt hd31]
    simp only [Function.update_same, insertGo_ext_match, Function.update_idem]
    rw [splitBuild_fork vc st' sl' s (oneSlot u v) (f + 1) hlt hd31]
    rfl

theorem getGo_ext_mismatch {Fr : Type} {nstem st : Stem} (hne : nstem ≠ st)
    (u : Byte) (sl : Fin 256 → Option Value) (sc : Fin 256 → Fr) :
    ∀ fuel i, getGo st u fuel i (.ext nstem sl sc : Node Fr) = none := by
  intro fuel i
  cases fuel with
  | zero => simp [getGo, hne]
  | succ f => by_cases h : i < 31 <;> simp [getGo, h, hne]

/-- Looking up the relocated old stem in a split structure. -/
theorem getGo_splitBuild_old {Fr Cm Pf : Type} (vc : VCScheme Fr Cm Pf)
    (o : Stem) (u : Byte) (so : Fin 256 → Option Value) (n : Stem)
    (sn : Fin 256 → Option Value) :
    ∀ fuel i (d : Nat), fuel + i = 31 → i ≤ d → (hd : d < 31) →
      o ⟨d, hd⟩ ≠ n ⟨d, hd⟩ →
      getGo o u fuel i (splitBuild vc d o so n sn fuel i) = so u := by
  intro fuel
  induction fuel with
  | zero => intro i d hf hid hd hb; omega
  | succ f ih =>
      intro i d hf hid hd hb
      have hi31 : i < 31 := by omega
      by_cases hlt : i < d
      · rw [splitBuild_lt vc o so n sn f hlt hd]
        simp only [getGo, dif_pos hi31, Function.update_same]
        exact ih (i + 1) d (by omega) (by omega) hd hb
      · have hdeq : d = i := by omega
        subst hdeq
        rw [splitBuild_fork vc o so n sn (f + 1) hlt hd]
        simp only [getGo, dif_pos hi31, Function.update_noteq hb,
          Function.update_same, getGo_ext_match]

/-- Looking up the fresh new stem in a split structure. -/
theorem getGo_splitBuild_new {Fr Cm Pf : Type} (vc : VCScheme Fr Cm Pf)
    (o : Stem) (u : Byte) (so : Fin 256 → Option Value) (n : Stem)
    (sn : Fin 256 → Option Value) :
    ∀ fuel i (d : Nat), fuel + i = 31 → i ≤ d → (hd : d < 31) →
      (∀ j : Fin 31, (j : Nat) < d → o j = n j) →
      getGo n u fuel i (splitBuild vc d o so n sn fuel i) = sn u := by
  intro fuel
  induction fuel with
  | zero => intro i d hf hid hd hag; omega
  | succ f ih =>
      intro i d hf hid hd hag
      have hi31 : i < 31 := by omega
      by_cases hlt : i < d
      · rw [splitBuild_lt vc o so n sn f hlt hd]
        have hb : (o ⟨i, by omega⟩ : Byte) = n ⟨i, by omega⟩ :=
          hag ⟨i, hi31⟩ hlt
        rw [hb]
        simp only [getGo, dif_pos hi31, Function.update_same]
        exact ih (i + 1) d (by omega) (by omega) hd hag
      · have hdeq : d = i := by omega
        subst hdeq
        rw [splitBuild_fork vc o so n sn (f + 1) hlt hd]
        simp only [getGo, dif_pos hi31, Function.update_same, getGo_ext_match]

/-- Looking up any other stem in a split structure misses. -/
theorem getGo_splitBuild_miss {Fr Cm Pf : Type} (vc : VCScheme Fr Cm Pf)
    (o : Stem) (w : Stem) (u : Byte) (so : Fin 256 → Option Value) (n : Stem)
    (sn : Fin 256 → Option Value) :
    ∀ fuel i (d : Nat), fuel + i = 31 → i ≤ d → (hd : d < 31) →
      w ≠ o → w ≠ n →
      getGo w u fuel i (splitBuild vc d o so n sn fuel i) = none := by
  intro fuel
  induction fuel with
  | zero => intro i d hf hid hd hwo hwn; omega
  | succ f ih =>
      intro i d hf hid hd hwo hwn
      have hi31 : i < 31 := by omega
      by_cases hlt : i < d
      · rw [splitBuild_lt vc o so n sn f hlt hd]
        by_cases hb : (w ⟨i, hi31⟩ : Byte) = o ⟨i, by omega⟩
        · simp only [getGo, dif_pos hi31]
          rw [show (o ⟨i, by omega⟩ : Byte) = w ⟨i, hi31⟩ from hb.symm,
            Function.update_same]
          exact ih (i + 1) d (by omega) (by omega) hd hwo hwn
        · simp only [getGo, dif_pos hi31]
          rw [Function.update_noteq hb, getGo_absent]
      · have hdeq : d = i := by omega
        subst hdeq
        rw [splitBuild_fork vc o so n sn (f + 1) hlt hd]
        simp only [getGo, dif_pos hi31]
        by_cases hbn : (w ⟨d, hi31⟩ : Byte) = n ⟨d, hd⟩
        · rw [show (n ⟨d, hd⟩ : Byte) = w ⟨d, hi31⟩ from hbn.symm,
            Function.update_same, getGo_ext_mismatch (Ne.symm hwn)]
        · rw [Function.update_noteq hbn]
          by_cases hbo : (w ⟨d, hi31⟩ : Byte) = o ⟨d, hd⟩
          · rw [show (o ⟨d, hd⟩ : Byte) = w ⟨d, hi31⟩ from hbo.symm,
              Function.update_same, getGo_ext_mismatch (Ne.symm hwo)]
          · rw [Function.update_noteq hbo, getGo_absent]

/-! ## The path invariant and its preservation -/

theorem Agr_two {a b q : Stem} {i : Nat} (h1 : Agr a q i) (h2 : Agr b q i) :
    Agr a b i :=
  fun j hj => (h1 j hj).trans (h2 j hj).symm

theorem Agr_pathUpd {s q : Stem} {i : Nat} (h : Agr s q i) {b : Byte}
    (hb : ∀ hlt : i < 31, s ⟨i, hlt⟩ = b) : Agr s (pathUpd q i b) (i + 1) := by
  intro j hj
  by_cases hji : (j : Nat) = i
  · have hjlt : i < 31 := by omega
    have hje : j = ⟨i, hjlt⟩ := Fin.ext hji
    rw [hje]
    simp only [pathUpd, if_true]
    exact hb hjlt
  · simp only [pathUpd]
    rw [if_neg hji]
    exact h j (by omega)

theorem WF_freshExt {Fr Cm Pf : Type} (vc : VCScheme Fr Cm Pf) {s q : Stem}
    {i : Nat} (u : Byte) (v : Value) (h : Agr s q i) (hi : i ≤ 31) :
    WF i q (freshExt vc s u v : Node Fr) :=
  WF.ext h hi

theorem WF_splitBuild {Fr Cm Pf : Type} (vc : VCScheme Fr Cm Pf)
    {o n : Stem} (so sn : Fin 256 → Option Value) :
    ∀ fuel i (d : Nat) (q : Stem), fuel + i = 31 → i ≤ d → d < 31 →
      Agr o q i → Agr n q i →
      (∀ j : Fin 31, (j : Nat) < d → o j = n j) →
      WF i q (splitBuild vc d o so n sn fuel i) := by
  intro fuel
  induction fuel with
  | zero => intro i d q hf hid hd ho hn hag; omega
  | succ f ih =>
      intro i d q hf hid hd ho hn hag
      have hi31 : i < 31 := by omega
      by_cases hlt : i < d
      · rw [splitBuild_lt vc o so n sn f hlt hd]
        refine WF.internal (by omega) ?_
        intro b
        by_cases hb : b = o ⟨i, by omega⟩
        · subst hb
          rw [Function.update_same]
          exact ih (i + 1) d _ (by omega) (by omega) hd
            (Agr_pathUpd ho fun _ => rfl)
            (Agr_pathUpd hn fun _ => (hag ⟨i, hi31⟩ hlt).symm) hag
        · rw [Function.update_noteq hb]
          exact WF.absent
      · have hdeq : d = i := by omega
        subst hdeq
        rw [splitBuild_fork vc o so n sn (f + 1) hlt hd]
        refine WF.internal (by omega) ?_
        intro b
        by_cases hbn : b = n ⟨d, hd⟩
        · subst hbn
          rw [Function.update_same]
          exact WF.ext (Agr_pathUpd hn fun _ => rfl) (by omega)
        · rw [Function.update_noteq hbn]
          by_cases hbo : b = o ⟨d, hd⟩
          · subst hbo
            rw [Function.update_same]
            exact WF.ext (Agr_pathUpd ho fun _ => rfl) (by omega)
          · rw [Function.update_noteq hbo]
            exact WF.absent

theorem WF_insertLast {Fr Cm Pf : Type} (vc : VCScheme Fr Cm Pf)
    {s q : Stem} {u : Byte} {v : Value} {n : Node Fr}
    (hwf : WF 31 q n) :
    WF 31 q (insertLast vc s u v n) := by
  cases n with
  | absent => exact WF.absent
  | internal ch cm =>
      cases hwf with
      | internal hle hch => omega
  | ext st' sl sc =>
      cases hwf with
      | ext hagr hle =>
          rw [insertLast]
          by_cases he : st' = s
          · rw [if_pos he]
            exact WF.ext hagr hle
          · rw [if_neg he]
            exact WF.ext hagr hle

theorem WF_insertGo {Fr Cm Pf : Type} (vc : VCScheme Fr Cm Pf)
    {s : Stem} {u : Byte} {v : Value} :
    ∀ fuel i (q : Stem) (n : Node Fr), fuel + i = 31 → WF i q n →
      Agr s q i → WF i q (insertGo vc s u v fuel i n) := by
  intro fuel
  induction fuel with
  | zero =>
      intro i q n hf hwf hs
      have h31 : i = 31 := by omega
      subst h31
      exact WF_insertLast vc hwf
  | succ f ih =>
      intro i q n hf hwf hs
      have hi31 : i < 31 := by omega
      cases n with
      | absent => simp only [insertGo, dif_pos hi31]; exact WF.absent
      | ext st' sl sc =>
          cases hwf with
          | ext hagr hle =>
              by_cases he : st' = s
              · subst he
                rw [insertGo_ext_match]
                exact WF.ext hagr hle
              · have hAgrS : Agr st' s i := Agr_two hagr hs
                have hile : i ≤ fd st' s := fd_ge_of_agr (by omega) hAgrS
                rw [insertGo_ext_split vc s u v st' sl sc (f + 1) i
                  (by omega) he hile]
                exact WF_splitBuild vc _ _ (f + 1) i (fd st' s) q (by omega)
                  hile (fd_lt31_of_ne he) hagr hs (fd_agree st' s)
      | internal ch cm =>
          cases hwf with
          | internal hle hch =>
              simp only [insertGo, dif_pos hi31]
              cases hc : ch (s ⟨i, hi31⟩) with
              | absent =>
                  refine WF.internal hle ?_
                  intro b
                  by_cases hb : b = s ⟨i, hi31⟩
                  · subst hb
                    rw [Function.update_same]
                    exact WF_freshExt vc u v
                      (Agr_pathUpd hs fun _ => rfl) (by omega)
                  · rw [Function.update_noteq hb]
                    exact hch b
              | internal ch2 cm2 =>
                  refine WF.internal hle ?_
                  intro b
                  by_cases hb : b = s ⟨i, hi31⟩
                  · subst hb
                    rw [Function.update_same]
                    have hrec := ih (i + 1) (pathUpd q i (s ⟨i, hi31⟩))
                      (ch (s ⟨i, hi31⟩)) (by omega) (hch _)
                      (Agr_pathUpd hs fun _ => rfl)
                    rw [hc] at hrec
                    exact hrec
                  · rw [Function.update_noteq hb]
                    exact hch b
              | ext st2 sl2 sc2 =>
                  refine WF.internal hle ?_
                  intro b
                  by_cases hb : b = s ⟨i, hi31⟩
                  · subst hb
                    rw [Function.update_same]
                    have hrec := ih (i + 1) (pathUpd q i (s ⟨i, hi31⟩))
                      (ch (s ⟨i, hi31⟩)) (by omega) (hch _)
                      (Agr_pathUpd hs fun _ => rfl)
                    rw [hc] at hrec
                    exact hrec
                  · rw [Function.update_noteq hb]
                    exact hch b

theorem WF_computeCommitment {Fr Cm Pf : Type} (vc : VCScheme Fr Cm Pf)
    {i : Nat} {q : Stem} {n : Node Fr} (hwf : WF i q n) :
    WF i q (computeCommitment vc n).1 := by
  induction hwf with
  | absent => exact WF.absent
  | ext hagr hle => exact WF.ext hagr hle
  | internal hle hch ih => exact WF.internal hle ih

theorem WF_treeInsert_root {Fr Cm Pf : Type} {t : VerkleTree Fr Cm Pf}
    {q : Stem} (hwf : WF 0 q t.root) (k : Key) (v : Value) :
    WF 0 q (treeInsert t k v).root := by
  have hAgr0 : ∀ s : Stem, Agr s q 0 := fun s j hj => absurd hj (by omega)
  cases ht : t.root with
  | absent =>
      simp only [treeInsert, ht]
      exact WF_computeCommitment t.vc (WF_freshExt t.vc _ v (hAgr0 _) (by omega))
  | internal ch cm =>
      simp only [treeInsert, ht]
      exact WF_computeCommitment t.vc
        (WF_insertGo t.vc 31 0 q _ rfl (ht ▸ hwf) (hAgr0 _))
  | ext st' sl sc =>
      simp only [treeInsert, ht]
      exact WF_computeCommitment t.vc
        (WF_insertGo t.vc 31 0 q _ rfl (ht ▸ hwf) (hAgr0 _))

theorem WF_foldl_insert {Fr Cm Pf : Type} :
    ∀ (l : List (Key × Value)) (t : VerkleTree Fr Cm Pf) (q : Stem),
      WF 0 q t.root →
      WF 0 q (l.foldl (fun t kv => treeInsert t kv.1 kv.2) t).root := by
  intro l
  induction l with
  | nil => intro t q h; exact h
  | cons kv rest ih =>
      intro t q h
      exact ih _ q (WF_treeInsert_root h kv.1 kv.2)

theorem WF_reachable {Fr Cm Pf : Type} {vc : VCScheme Fr Cm Pf}
    {t : VerkleTree Fr Cm Pf} (hr : Reachable vc t) (q : Stem) :
    WF 0 q t.root := by
  obtain ⟨l, rfl⟩ := hr
  exact WF_foldl_insert l (VerkleTree.new vc) q WF.absent

theorem Reachable_treeInsert {Fr Cm Pf : Type} {vc : VCScheme Fr Cm Pf}
    {t : VerkleTree Fr Cm Pf} (hr : Reachable vc t) (k : Key) (v : Value) :
    Reachable vc (treeInsert t k v) := by
  obtain ⟨l, rfl⟩ := hr
  exact ⟨l ++ [(k, v)], by rw [buildTree, List.foldl_append]; rfl⟩

/-- `get` is insensitive to the commitment recomputation. -/
theorem getGo_computeCommitment {Fr Cm Pf : Type} (vc : VCScheme Fr Cm Pf)
    (st : Stem) (u : Byte) :
    ∀ fuel i (n : Node Fr),
      getGo st u fuel i (computeCommitment vc n).1 = getGo st u fuel i n := by
  intro fuel
  induction fuel with
  | zero => intro i n; cases n <;> rfl
  | succ f ih =>
      intro i n
      by_cases hi : i < 31
      · cases n with
        | absent => rfl
        | ext st' sl sc => rfl
        | internal ch cm =>
            simp only [getGo, dif_pos hi]
            exact ih (i + 1) (ch (st ⟨i, hi⟩))
      · cases n with
        | absent => rfl
        | ext st' sl sc => rfl
        | internal ch cm => simp only [getGo, dif_neg hi, computeCommitment]

/-- The heart of the insert/get round trip: after the insert walk, looking
up the same key yields the inserted value. -/
theorem getGo_insertGo {Fr Cm Pf : Type} (vc : VCScheme Fr Cm Pf) {s : Stem}
    {u : Byte} {v : Value} :
    ∀ fuel i (q : Stem) (n : Node Fr), fuel + i = 31 → WF i q n →
      Agr s q i → n ≠ .absent →
      getGo s u fuel i (insertGo vc s u v fuel i n) = some v := by
  intro fuel
  induction fuel with
  | zero =>
      intro i q n hf hwf hs hne
      have h31 : i = 31 := by omega
      subst h31
      cases n with
      | absent => exact absurd rfl hne
      | internal ch cm => cases hwf with | internal hle _ => omega
      | ext st' sl sc =>
          cases hwf with
          | ext hagr hle =>
              have hst : st' = s :=
                funext fun j => Agr_two hagr hs j (by omega)
              subst hst
              rw [insertGo_ext_match, getGo_ext_match, Function.update_same]
  | succ f ih =>
      intro i q n hf hwf hs hne
      have hi31 : i < 31 := by omega
      cases n with
      | absent => exact absurd rfl hne
      | ext st' sl sc =>
          cases hwf with
          | ext hagr hle =>
              by_cases he : st' = s
              · subst he
                rw [insertGo_ext_match, getGo_ext_match, Function.update_same]
              · have hAgrS : Agr st' s i := Agr_two hagr hs
                have hile : i ≤ fd st' s := fd_ge_of_agr (by omega) hAgrS
                rw [insertGo_ext_split vc s u v st' sl sc (f + 1) i
                  (by omega) he hile]
                rw [getGo_splitBuild_new vc st' u sl s (oneSlot u v) (f + 1) i
                  (fd st' s) (by omega) hile (fd_lt31_of_ne he)
                  (fd_agree st' s)]
                simp [oneSlot, Function.update_same]
      | internal ch cm =>
          cases hwf with
          | internal hle hch =>
              simp only [insertGo, dif_pos hi31]
              cases hc : ch (s ⟨i, hi31⟩) with
              | absent =>
                  simp only [getGo, dif_pos hi31, Function.update_same]
                  rw [show freshExt vc s u v =
                    Node.ext s (oneSlot u v) (fun _ => zeroValue vc) from rfl]
                  rw [getGo_ext_match]
                  simp [oneSlot, Function.update_same]
              | internal ch2 cm2 =>
                  simp only [getGo, dif_pos hi31, Function.update_same]
                  have hrec := ih (i + 1) (pathUpd q i (s ⟨i, hi31⟩))
                    (ch (s ⟨i, hi31⟩)) (by omega) (hch _)
                    (Agr_pathUpd hs fun _ => rfl) (by simp [hc])
                  rw [hc] at hrec
                  exact hrec
              | ext st2 sl2 sc2 =>
                  simp only [getGo, dif_pos hi31, Function.update_same]
                  have hrec := ih (i + 1) (pathUpd q i (s ⟨i, hi31⟩))
                    (ch (s ⟨i, hi31⟩)) (by omega) (hch _)
                    (Agr_pathUpd hs fun _ => rfl) (by simp [hc])
                  rw [hc] at hrec
                  exact hrec

/-- Helper: the insert/get round trip at tree level, for every reachable
tree. -/
theorem treeGet_treeInsert_self {Fr Cm Pf : Type} {vc : VCScheme Fr Cm Pf}
    {t : VerkleTree Fr Cm Pf} (hr : Reachable vc t) (k : Key) (v : Value) :
    treeGet (treeInsert t k v) k = some v := by
  have hwf := WF_reachable hr (splitKey k).1
  have hAgr0 : Agr (splitKey k).1 (splitKey k).1 0 :=
    fun j hj => absurd hj (by omega)
  cases ht : t.root with
  | absent =>
      simp only [treeGet, treeInsert, ht]
      rw [getGo_computeCommitment]
      rw [show freshExt t.vc (splitKey k).1 (splitKey k).2 v =
        Node.ext (splitKey k).1 (oneSlot (splitKey k).2 v)
          (fun _ => zeroValue t.vc) from rfl]
      rw [getGo_ext_match]
      simp [oneSlot, Function.update_same]
  | internal ch cm =>
      simp only [treeGet, treeInsert, ht]
      rw [getGo_computeCommitment]
      exact getGo_insertGo t.vc 31 0 (splitKey k).1 _ rfl (ht ▸ hwf) hAgr0
        (by simp)
  | ext st' sl sc =>
      simp only [treeGet, treeInsert, ht]
      rw [getGo_computeCommitment]
      exact getGo_insertGo t.vc 31 0 (splitKey k).1 _ rfl (ht ▸ hwf) hAgr0
        (by simp)

/-- C5: insert/get round trip on every reachable tree: immediately after
`insert(k, v)`, `get(k)` returns `v`; in particular a second insert to the
same key overwrites. -/
theorem C5_insert_get_round_trip {Fr Cm Pf : Type} (vc : VCScheme Fr Cm Pf)
    (t : VerkleTree Fr Cm Pf) (k : Key) (v v1 v2 : Value)
    (hr : Reachable vc t) :
    treeGet (treeInsert t k v) k = some v ∧
    treeGet (treeInsert (treeInsert t k v1) k v2) k = some v2 :=
  ⟨treeGet_treeInsert_self hr k v,
    treeGet_treeInsert_self (Reachable_treeInsert hr k v1) k v2⟩

/-- Witness for C5 at a concrete tree, key and values. -/
theorem C5_witness :
    Reachable idealVC exTreeA ∧
    treeGet (treeInsert exTreeA exKeyB [7]) exKeyB = some [7] ∧
    treeGet (treeInsert (treeInsert exTreeA exKeyB [8]) exKeyB [9]) exKeyB =
      some [9] := by
  have hr : Reachable idealVC exTreeA := ⟨[(exKeyA, [3, 4, 5])], rfl⟩
  have h := C5_insert_get_round_trip idealVC exTreeA exKeyB [7] [8] [9] hr
  exact ⟨hr, h.1, h.2⟩

theorem Agr_of_pathUpd {st q : Stem} {i : Nat} {b : Byte}
    (h : Agr st (pathUpd q i b) (i + 1)) : Agr st q i := by
  intro j hj
  have := h j (by omega)
  rwa [pathUpd, if_neg (by omega)] at this

theorem stem_byte_of_pathUpd {st q : Stem} {i : Nat} {b : Byte} (hi : i < 31)
    (h : Agr st (pathUpd q i b) (i + 1)) : st ⟨i, hi⟩ = b := by
  have := h ⟨i, hi⟩ (by simp)
  rwa [pathUpd, if_pos rfl] at this

/-- Well-formed subtrees have pairwise distinct extension stems, all of
which agree with the access path. -/
theorem extStems_nodup_of_WF {Fr : Type} {i : Nat} {q : Stem} {n : Node Fr}
    (hwf : WF i q n) :
    (extStems n).Nodup ∧ ∀ st ∈ extStems n, Agr st q i := by
  induction hwf with
  | absent => exact ⟨List.nodup_nil, by simp [extStems]⟩
  | ext hagr hle =>
      refine ⟨List.nodup_singleton _, ?_⟩
      intro st hst
      simp only [extStems, List.mem_singleton] at hst
      subst hst
      exact hagr
  | internal hle hch ih =>
      constructor
      · show ((List.finRange 256).flatMap _).Nodup
        rw [List.nodup_flatMap]
        refine ⟨fun b _ => (ih b).1, ?_⟩
        refine List.Pairwise.imp ?_ (List.nodup_finRange 256)
        intro b b' hbb
        intro st hstb hstb'
        have h1 := (ih b).2 st hstb
        have h2 := (ih b').2 st hstb'
        have hb1 := stem_byte_of_pathUpd (by omega) h1
        have hb2 := stem_byte_of_pathUpd (by omega) h2
        exact hbb (hb1 ▸ hb2 ▸ rfl)
      · intro st hst
        simp only [extStems, List.mem_flatMap] at hst
        obtain ⟨b, _, hb⟩ := hst
        exact Agr_of_pathUpd ((ih b).2 st hb)

/-- C9: in every tree state reachable from the empty tree by inserts, the
stems of all Extension nodes reachable from the root are pairwise
distinct. -/
theorem C9_distinct_stems {Fr Cm Pf : Type} (vc : VCScheme Fr Cm Pf)
    (t : VerkleTree Fr Cm Pf) (hr : Reachable vc t) :
    (extStems t.root).Nodup :=
  (extStems_nodup_of_WF (WF_reachable hr fun _ => 0)).1

/-- Witness for C9 at a two-extension tree. -/
theorem C9_witness :
    Reachable idealVC exTreeB ∧ (extStems exTreeB.root).Nodup := by
  have hr : Reachable idealVC exTreeB :=
    ⟨[(exKeyB, [1, 2, 3]), (exKeyB', [4, 5, 6])], rfl⟩
  exact ⟨hr, C9_distinct_stems idealVC exTreeB hr⟩

theorem Node.isAbsent_strip {Fr : Type} (n : Node Fr) :
    (strip n).isAbsent = n.isAbsent := by
  cases n <;> rfl

/-- Commitment recomputation does not change the pure structure. -/
theorem strip_computeCommitment {Fr Cm Pf : Type} (vc : VCScheme Fr Cm Pf) :
    ∀ n : Node Fr, strip (computeCommitment vc n).1 = strip n := by
  intro n
  induction n with
  | absent => rfl
  | ext st sl sc => rfl
  | internal ch cm ih =>
      show Node.internal _ _ = Node.internal _ _
      rw [Node.internal.injEq]
      exact ⟨funext fun b => ih b, rfl⟩

/-- Commitment recomputation is determined by the pure structure: nodes that
differ only in their (stale) digest arrays recompute identically. -/
theorem computeCommitment_congr {Fr Cm Pf : Type} (vc : VCScheme Fr Cm Pf) :
    ∀ (n m : Node Fr), strip n = strip m →
      computeCommitment vc n = computeCommitment vc m := by
  intro n
  induction n with
  | absent =>
      intro m h
      cases m <;> simp [strip] at h ⊢
  | ext st sl sc =>
      intro m h
      cases m with
      | absent => simp [strip] at h
      | internal ch' cm' => simp [strip] at h
      | ext st' sl' sc' =>
          simp only [strip, Node.ext.injEq] at h
          obtain ⟨h1, h2, -⟩ := h
          subst h1
          subst h2
          rfl
  | internal ch cm ih =>
      intro m h
      cases m with
      | absent => simp [strip] at h
      | ext st' sl' sc' => simp [strip] at h
      | internal ch' cm' =>
          simp only [strip, Node.internal.injEq] at h
          obtain ⟨hch, -⟩ := h
          have hc : ∀ b, computeCommitment vc (ch b) =
              computeCommitment vc (ch' b) :=
            fun b => ih b (ch' b) (congrFun hch b)
          have habs : ∀ b, (ch b).isAbsent = (ch' b).isAbsent := fun b => by
            rw [← Node.isAbsent_strip, ← Node.isAbsent_strip (ch' b),
              congrFun hch b]
          have hdig : (fun b : Fin 256 => if (ch b).isAbsent then zeroChild vc
              else digestCommit vc (computeCommitment vc (ch b)).2) =
              (fun b : Fin 256 => if (ch' b).isAbsent then zeroChild vc
              else digestCommit vc (computeCommitment vc (ch' b)).2) :=
            funext fun b => by rw [habs b, hc b]
          have hkid : (fun b : Fin 256 => (computeCommitment vc (ch b)).1) =
              (fun b : Fin 256 => (computeCommitment vc (ch' b)).1) :=
            funext fun b => by rw [hc b]
          show ((Node.internal _ _ : Node Fr), _) = ((Node.internal _ _ : Node Fr), _)
          rw [Prod.mk.injEq, Node.internal.injEq]
          refine ⟨⟨?_, ?_⟩, ?_⟩
          · exact hkid
          · exact hdig
          · rw [hdig]

/-- Recomputing the commitment of a freshly recomputed node changes
nothing: the digest arrays are fully populated. -/
theorem computeCommitment_idem {Fr Cm Pf : Type} (vc : VCScheme Fr Cm Pf)
    (n : Node Fr) :
    computeCommitment vc (computeCommitment vc n).1 = computeCommitment vc n :=
  computeCommitment_congr vc _ _ (strip_computeCommitment vc n)

/-- C4: the (spec-modelled) `commit()` returns the VC commitment of the root
node — the canonical empty commitment (all-`ZERO_CHILD` vector) on the empty
tree — and as a side effect populates/refreshes every node's digest array:
recomputing the returned tree's commitments is the identity. -/
theorem C4_commit_root_commitment {Fr Cm Pf : Type}
    (t : VerkleTree Fr Cm Pf) :
    (t.root = .absent →
      (treeCommit t).2 = t.vc.commitFromChildren (fun _ => zeroChild t.vc) ∧
      (treeCommit t).1 = t) ∧
    (t.root ≠ .absent →
      (treeCommit t).2 = (computeCommitment t.vc t.root).2 ∧
      (treeCommit t).1.root = (computeCommitment t.vc t.root).1 ∧
      computeCommitment t.vc (treeCommit t).1.root =
        ((treeCommit t).1.root, (treeCommit t).2)) := by
  cases ht : t.root with
  | absent =>
      refine ⟨fun _ => ⟨?_, ?_⟩, fun hne => absurd rfl hne⟩
      · simp [treeCommit, ht]
      · simp [treeCommit, ht]
  | internal ch cm =>
      refine ⟨fun hab => Node.noConfusion hab, fun _ => ?_⟩
      refine ⟨by simp [treeCommit, ht], by simp [treeCommit, ht], ?_⟩
      simp only [treeCommit, ht]
      rw [computeCommitment_idem]
  | ext st' sl sc =>
      refine ⟨fun hab => Node.noConfusion hab, fun _ => ?_⟩
      refine ⟨by simp [treeCommit, ht], by simp [treeCommit, ht], ?_⟩
      simp only [treeCommit, ht]
      rw [computeCommitment_idem]

/-- Witness for C4 at the empty tree and at a one-key tree. -/
theorem C4_witness :
    ((VerkleTree.new idealVC).root = .absent ∧
      (treeCommit (VerkleTree.new idealVC)).2 =
        idealVC.commitFromChildren (fun _ => zeroChild idealVC)) ∧
    (exTreeA.root ≠ .absent ∧
      computeCommitment idealVC (treeCommit exTreeA).1.root =
        ((treeCommit exTreeA).1.root, (treeCommit exTreeA).2)) := by
  have h1 := C4_commit_root_commitment (VerkleTree.new idealVC)
  have h2 := C4_commit_root_commitment exTreeA
  have hne : exTreeA.root ≠ .absent := by
    intro h
    exact Node.noConfusion h
  exact ⟨⟨rfl, (h1.1 rfl).1⟩, ⟨hne, (h2.2 hne).2.2⟩⟩

theorem insertGo_internal_eq {Fr Cm Pf : Type} (vc : VCScheme Fr Cm Pf)
    (s : Stem) (u : Byte) (v : Value) (f i : Nat)
    (ch : Fin 256 → Node Fr) (cm : Fin 256 → Fr) (h : i < 31) :
    insertGo vc s u v (f + 1) i (.internal ch cm) =
      .internal
        (Function.update ch (s ⟨i, h⟩)
          (insChild vc s u v f i (ch (s ⟨i, h⟩)))) cm := by
  cases hc : ch (s ⟨i, h⟩) with
  | absent => simp [insertGo, dif_pos h, hc, insChild]
  | internal ch2 cm2 => simp [insertGo, dif_pos h, hc, insChild]
  | ext st2 sl2 sc2 => simp [insertGo, dif_pos h, hc, insChild]

theorem splitExtension_internal {Fr Cm Pf : Type} (vc : VCScheme Fr Cm Pf)
    (i : Nat) (o : Stem) (so : Fin 256 → Option Value) (n : Stem) :
    ∃ ch cm, splitExtension vc i o so n = .internal ch cm := by
  rw [splitExtension_eq]
  exact splitBuild_internal vc (fd o n) o so n (fun _ => none) (31 - i) i

theorem insertLast_ne_absent {Fr Cm Pf : Type} (vc : VCScheme Fr Cm Pf)
    (s : Stem) (u : Byte) (v : Value) {n : Node Fr} (hne : n ≠ .absent) :
    insertLast vc s u v n ≠ .absent := by
  cases n with
  | absent => exact absurd rfl hne
  | ext st' sl sc =>
      rw [insertLast]
      by_cases he : st' = s
      · rw [if_pos he]; simp
      · rw [if_neg he]; simp
  | internal ch cm =>
      rw [insertLast]
      cases hc : ch (s ⟨30, by omega⟩) with
      | absent => simp
      | internal ch2 cm2 => simp
      | ext st2 sl2 sc2 =>
          by_cases he : st2 = s <;> simp [he]

theorem insertGo_ne_absent {Fr Cm Pf : Type} (vc : VCScheme Fr Cm Pf)
    (s : Stem) (u : Byte) (v : Value) :
    ∀ fuel i {n : Node Fr}, n ≠ .absent →
      insertGo vc s u v fuel i n ≠ .absent := by
  intro fuel i n hne
  cases fuel with
  | zero => exact insertLast_ne_absent vc s u v hne
  | succ f =>
      by_cases hi : i < 31
      · cases n with
        | absent => exact absurd rfl hne
        | internal ch cm => rw [insertGo_internal_eq vc s u v f i ch cm hi]; simp
        | ext st' sl sc =>
            by_cases he : st' = s
            · subst he; rw [insertGo_ext_match]; simp
            · simp only [insertGo, dif_pos hi, if_neg he]
              obtain ⟨ch2, cm2, hsp⟩ := splitExtension_internal vc i st' sl s
              rw [hsp]
              split <;> (split <;> simp)
      · simp only [insertGo, dif_neg hi]
        exact insertLast_ne_absent vc s u v hne

theorem splitBuild_symm {Fr Cm Pf : Type} (vc : VCScheme Fr Cm Pf)
    (a : Stem) (sa : Fin 256 → Option Value) (b : Stem)
    (sb : Fin 256 → Option Value) :
    ∀ fuel i (d : Nat), fuel + i = 31 → i ≤ d → (hd : d < 31) →
      a ⟨d, hd⟩ ≠ b ⟨d, hd⟩ →
      (∀ j : Fin 31, (j : Nat) < d → a j = b j) →
      splitBuild vc d a sa b sb fuel i = splitBuild vc d b sb a sa fuel i := by
  intro fuel
  induction fuel with
  | zero => intro i d hf hid hd hne hag; omega
  | succ f ih =>
      intro i d hf hid hd hne hag
      have hi31 : i < 31 := by omega
      by_cases hlt : i < d
      · rw [splitBuild_lt vc a sa b sb f hlt hd,
            splitBuild_lt vc b sb a sa f hlt hd]
        rw [show (a ⟨i, by omega⟩ : Byte) = b ⟨i, by omega⟩ from
          hag ⟨i, hi31⟩ hlt]
        rw [ih (i + 1) d (by omega) (by omega) hd hne hag]
      · rw [splitBuild_fork vc a sa b sb (f + 1) hlt hd,
            splitBuild_fork vc b sb a sa (f + 1) hlt hd]
        rw [Function.update_comm hne]


theorem freshExt_oneSlot {Fr Cm Pf : Type} (vc : VCScheme Fr Cm Pf)
    (s : Stem) (u : Byte) (v : Value) :
    freshExt vc s u v = .ext s (oneSlot u v) (fun _ => zeroValue vc) := rfl

/-- Inserting two further distinct stems into a split structure commutes. -/
theorem insertGo_splitBuild_comm {Fr Cm Pf : Type} (vc : VCScheme Fr Cm Pf)
    (st' : Stem) (sl' : Fin 256 → Option Value) (s1 : Stem) (u1 : Byte)
    (v1 : Value) (s2 : Stem) (u2 : Byte) (v2 : Value) (h1 : st' ≠ s1)
    (h2 : st' ≠ s2) (h12 : s1 ≠ s2) :
    ∀ fuel i, fuel + i = 31 →
      i ≤ fd st' s1 → i ≤ fd st' s2 → i ≤ fd s1 s2 →
      insertGo vc s1 u1 v1 fuel i
        (splitBuild vc (fd st' s2) st' sl' s2 (oneSlot u2 v2) fuel i) =
      insertGo vc s2 u2 v2 fuel i
        (splitBuild vc (fd st' s1) st' sl' s1 (oneSlot u1 v1) fuel i) := by
  have hd1 : fd st' s1 < 31 := fd_lt31_of_ne h1
  have hd2 : fd st' s2 < 31 := fd_lt31_of_ne h2
  have hdE : fd s1 s2 < 31 := fd_lt31_of_ne h12
  have hag1 := fd_agree st' s1
  have hag2 := fd_agree st' s2
  have hagE := fd_agree s1 s2
  have hdiff1 := fd_diff st' s1
  have hdiff2 := fd_diff st' s2
  have hdiffE := fd_diff s1 s2
  obtain ⟨D1, hD1⟩ : ∃ D, fd st' s1 = D := ⟨_, rfl⟩
  obtain ⟨D2, hD2⟩ : ∃ D, fd st' s2 = D := ⟨_, rfl⟩
  obtain ⟨E, hE⟩ : ∃ D, fd s1 s2 = D := ⟨_, rfl⟩
  have hE2 : fd s2 s1 = E := by rw [fd_symm]; exact hE
  rw [hD1] at hd1 hdiff1
  rw [hD2] at hd2 hdiff2
  rw [hE] at hdE hdiffE
  have hag1' : ∀ j : Fin 31, (j : Nat) < D1 → st' j = s1 j := by
    intro j hj; exact hag1 j (by omega)
  have hag2' : ∀ j : Fin 31, (j : Nat) < D2 → st' j = s2 j := by
    intro j hj; exact hag2 j (by omega)
  have hagE' : ∀ j : Fin 31, (j : Nat) < E → s1 j = s2 j := by
    intro j hj; exact hagE j (by omega)
  rw [hD1, hD2, hE]
  intro fuel
  induction fuel with
  | zero => intro i hf hi1 hi2 hiE; omega
  | succ f ih =>
      intro i hf hi1 hi2 hiE
      have hi31 : i < 31 := by omega
      by_cases c1 : i < D1
      · by_cases c2 : i < D2
        · -- below both fork depths: both splits chain through the same link
          have hb1 : (st' ⟨i, hi31⟩ : Byte) = s1 ⟨i, hi31⟩ := hag1' ⟨i, hi31⟩ c1
          have hb2 : (st' ⟨i, hi31⟩ : Byte) = s2 ⟨i, hi31⟩ := hag2' ⟨i, hi31⟩ c2
          have hiE' : i < E := by
            rcases Nat.lt_or_ge i E with h | h
            · exact h
            · exfalso
              have hEi : E = i := by omega
              subst hEi
              exact hdiffE hdE (by rw [← hb1, ← hb2])
          obtain ⟨cA, mA, hA⟩ :=
            splitBuild_internal vc D2 st' sl' s2 (oneSlot u2 v2) f (i + 1)
          obtain ⟨cB, mB, hB⟩ :=
            splitBuild_internal vc D1 st' sl' s1 (oneSlot u1 v1) f (i + 1)
          rw [splitBuild_lt vc st' sl' s2 (oneSlot u2 v2) f c2 hd2,
              splitBuild_lt vc st' sl' s1 (oneSlot u1 v1) f c1 hd1,
              insertGo_internal_eq vc s1 u1 v1 f i _ _ hi31,
              insertGo_internal_eq vc s2 u2 v2 f i _ _ hi31]
          rw [show (s1 ⟨i, hi31⟩ : Byte) = st' ⟨i, hi31⟩ from hb1.symm,
              show (s2 ⟨i, hi31⟩ : Byte) = st' ⟨i, hi31⟩ from hb2.symm]
          simp only [Function.update_same, Function.update_idem]
          rw [hA, hB]
          simp only [insChild]
          rw [← hA, ← hB, ih (i + 1) (by omega) (by omega) (by omega) (by omega)]
        · -- i is the fork depth of the (old-stem, s2) split; the s1 split chains
          obtain rfl : D2 = i := by omega
          have hb1 : (st' ⟨D2, hi31⟩ : Byte) = s1 ⟨D2, hi31⟩ :=
            hag1' ⟨D2, hi31⟩ c1
          have hbne2 : (st' ⟨D2, hi31⟩ : Byte) ≠ s2 ⟨D2, hi31⟩ := hdiff2 hd2
          rw [splitBuild_fork vc st' sl' s2 (oneSlot u2 v2) (f + 1)
                (Nat.lt_irrefl D2) hd2,
              splitBuild_lt vc st' sl' s1 (oneSlot u1 v1) f c1 hd1,
              insertGo_internal_eq vc s1 u1 v1 f D2 _ _ hi31,
              insertGo_internal_eq vc s2 u2 v2 f D2 _ _ hi31]
          rw [show (s1 ⟨D2, hi31⟩ : Byte) = st' ⟨D2, hi31⟩ from hb1.symm]
          simp only [Function.update_noteq hbne2,
            Function.update_noteq (Ne.symm hbne2), Function.update_same]
          simp only [insChild]
          rw [insertGo_ext_split vc s1 u1 v1 st' sl'
                (fun _ => zeroValue vc) f (D2 + 1) (by omega) h1
                (by rw [hD1]; omega)]
          rw [hD1]
          rw [Function.update_comm (Ne.symm hbne2), Function.update_idem,
              freshExt_oneSlot]
      · -- i is the fork depth of the (old-stem, s1) split; the s2 split chains
        obtain rfl : D1 = i := by omega
        by_cases c2 : (D1 : Nat) < D2
        · have hb2 : (st' ⟨D1, hi31⟩ : Byte) = s2 ⟨D1, hi31⟩ :=
            hag2' ⟨D1, hi31⟩ c2
          have hbne1 : (st' ⟨D1, hi31⟩ : Byte) ≠ s1 ⟨D1, hi31⟩ := hdiff1 hd1
          rw [splitBuild_lt vc st' sl' s2 (oneSlot u2 v2) f c2 hd2,
              splitBuild_fork vc st' sl' s1 (oneSlot u1 v1) (f + 1)
                (Nat.lt_irrefl D1) hd1,
              insertGo_internal_eq vc s1 u1 v1 f D1 _ _ hi31,
              insertGo_internal_eq vc s2 u2 v2 f D1 _ _ hi31]
          rw [show (s2 ⟨D1, hi31⟩ : Byte) = st' ⟨D1, hi31⟩ from hb2.symm]
          simp only [Function.update_noteq hbne1,
            Function.update_noteq (Ne.symm hbne1), Function.update_same]
          simp only [insChild]
          rw [insertGo_ext_split vc s2 u2 v2 st' sl'
                (fun _ => zeroValue vc) f (D1 + 1) (by omega) h2
                (by rw [hD2]; omega)]
          rw [hD2]
          rw [Function.update_comm (Ne.symm hbne1), Function.update_idem,
              freshExt_oneSlot]
        · -- both forks sit at depth i
          obtain rfl : D2 = D1 := by omega
          have hbne1 : (st' ⟨D2, hi31⟩ : Byte) ≠ s1 ⟨D2, hi31⟩ := hdiff1 hd1
          have hbne2 : (st' ⟨D2, hi31⟩ : Byte) ≠ s2 ⟨D2, hi31⟩ := hdiff2 hd2
          rw [splitBuild_fork vc st' sl' s2 (oneSlot u2 v2) (f + 1)
                (Nat.lt_irrefl D2) hd2,
              splitBuild_fork vc st' sl' s1 (oneSlot u1 v1) (f + 1)
                (Nat.lt_irrefl D2) hd1,
              insertGo_internal_eq vc s1 u1 v1 f D2 _ _ hi31,
              insertGo_internal_eq vc s2 u2 v2 f D2 _ _ hi31]
          by_cases hb12 : (s1 ⟨D2, hi31⟩ : Byte) = s2 ⟨D2, hi31⟩
          · -- same child byte: the two fresh extensions share a subtree
            have hiE' : (D2 : Nat) < E := by
              rcases Nat.lt_or_ge D2 E with h | h
              · exact h
              · exfalso
                have hEi : E = D2 := by omega
                subst hEi
                exact hdiffE hdE hb12
            rw [show (s1 ⟨D2, hi31⟩ : Byte) = s2 ⟨D2, hi31⟩ from hb12]
            simp only [Function.update_same, Function.update_idem]
            simp only [insChild]
            rw [insertGo_ext_split vc s1 u1 v1 s2 (oneSlot u2 v2)
                  (fun _ => zeroValue vc) f (D2 + 1) (by omega)
                  (Ne.symm h12) (by rw [hE2]; omega),
                insertGo_ext_split vc s2 u2 v2 s1 (oneSlot u1 v1)
                  (fun _ => zeroValue vc) f (D2 + 1) (by omega)
                  h12 (by rw [hE]; omega)]
            rw [hE, hE2]
            rw [splitBuild_symm vc s2 (oneSlot u2 v2) s1 (oneSlot u1 v1) f
                  (D2 + 1) E (by omega) (by omega) hdE
                  (Ne.symm (hdiffE hdE))
                  (fun j hj => (hagE' j hj).symm)]
          · -- three-way fork: the two new extensions land in distinct slots
            simp only [Function.update_noteq hb12,
              Function.update_noteq (Ne.symm hb12),
              Function.update_noteq (Ne.symm hbne1),
              Function.update_noteq (Ne.symm hbne2)]
            simp only [insChild]
            simp only [freshExt_oneSlot]
            rw [Function.update_comm (Ne.symm hb12)]

theorem insChild_ne_absent {Fr Cm Pf : Type} (vc : VCScheme Fr Cm Pf)
    (s : Stem) (u : Byte) (v : Value) (f i : Nat) {c : Node Fr}
    (h : c ≠ .absent) :
    insChild vc s u v f i c = insertGo vc s u v f (i + 1) c := by
  cases c with
  | absent => exact absurd rfl h
  | internal ch cm => rfl
  | ext st sl sc => rfl

/-- Two insert walks started at the same depth on the same extension node
commute, given the walk-depth bounds on the pairwise first-difference
indices of the stems involved. -/
theorem insertGo_ext_comm {Fr Cm Pf : Type} (vc : VCScheme Fr Cm Pf)
    (s1 : Stem) (u1 : Byte) (v1 : Value) (s2 : Stem) (u2 : Byte) (v2 : Value)
    (hne : s1 = s2 → u1 ≠ u2) (st2 : Stem) (sl2 : Fin 256 → Option Value)
    (sc2 : Fin 256 → Fr) (fuel i : Nat) (hf : fuel + i = 31)
    (hb1 : st2 ≠ s1 → i ≤ fd st2 s1) (hb2 : st2 ≠ s2 → i ≤ fd st2 s2)
    (hbE : s1 ≠ s2 → i ≤ fd s1 s2) :
    insertGo vc s2 u2 v2 fuel i
      (insertGo vc s1 u1 v1 fuel i (.ext st2 sl2 sc2)) =
    insertGo vc s1 u1 v1 fuel i
      (insertGo vc s2 u2 v2 fuel i (.ext st2 sl2 sc2)) := by
  by_cases e1 : st2 = s1
  · by_cases e2 : st2 = s2
    · -- both stems match the extension: two slot writes commute
      subst e1
      obtain rfl : st2 = s2 := e2
      have hu : u1 ≠ u2 := hne rfl
      rw [insertGo_ext_match, insertGo_ext_match, insertGo_ext_match,
          insertGo_ext_match, Function.update_comm hu]
    · -- the first stem matches, the second forces a split
      subst e1
      rw [insertGo_ext_match,
          insertGo_ext_split vc s2 u2 v2 st2
            (Function.update sl2 u1 (some v1)) sc2 fuel i hf e2 (hb2 e2),
          insertGo_ext_split vc s2 u2 v2 st2 sl2 sc2 fuel i hf e2 (hb2 e2),
          insertGo_splitBuild_old vc st2 sl2 s2 u1 v1 fuel i (oneSlot u2 v2)
            (fd st2 s2) hf (hb2 e2) (fd_lt31_of_ne e2)
            (fd_diff st2 s2 (fd_lt31_of_ne e2))]
  · by_cases e2 : st2 = s2
    · -- the second stem matches, the first forces a split
      subst e2
      rw [insertGo_ext_match,
          insertGo_ext_split vc s1 u1 v1 st2
            (Function.update sl2 u2 (some v2)) sc2 fuel i hf e1 (hb1 e1),
          insertGo_ext_split vc s1 u1 v1 st2 sl2 sc2 fuel i hf e1 (hb1 e1),
          insertGo_splitBuild_old vc st2 sl2 s1 u2 v2 fuel i (oneSlot u1 v1)
            (fd st2 s1) hf (hb1 e1) (fd_lt31_of_ne e1)
            (fd_diff st2 s1 (fd_lt31_of_ne e1))]
    · -- neither stem matches: both walks split the extension
      rw [insertGo_ext_split vc s1 u1 v1 st2 sl2 sc2 fuel i hf e1 (hb1 e1),
          insertGo_ext_split vc s2 u2 v2 st2 sl2 sc2 fuel i hf e2 (hb2 e2)]
      by_cases e12 : s1 = s2
      · subst e12
        have hu : u1 ≠ u2 := hne rfl
        rw [insertGo_splitBuild_new vc st2 sl2 s1 u2 v2 fuel i (oneSlot u1 v1)
              (fd st2 s1) hf (hb1 e1) (fd_lt31_of_ne e1)
              (fun j _ hj => fd_agree st2 s1 j hj),
            insertGo_splitBuild_new vc st2 sl2 s1 u1 v1 fuel i (oneSlot u2 v2)
              (fd st2 s1) hf (hb1 e1) (fd_lt31_of_ne e1)
              (fun j _ hj => fd_agree st2 s1 j hj)]
        simp only [oneSlot]
        rw [Function.update_comm hu]
      · exact (insertGo_splitBuild_comm vc st2 sl2 s1 u1 v1 s2 u2 v2 e1 e2 e12
          fuel i hf (hb1 e1) (hb2 e2) (hbE e12)).symm

/-- Two insert walks for different (stem, suffix) pairs commute on any
well-formed node whose access path agrees with both stems. -/
theorem insertGo_comm {Fr Cm Pf : Type} (vc : VCScheme Fr Cm Pf)
    (s1 : Stem) (u1 : Byte) (v1 : Value) (s2 : Stem) (u2 : Byte) (v2 : Value)
    (hne : s1 = s2 → u1 ≠ u2) :
    ∀ fuel i (q : Stem) (n : Node Fr), fuel + i = 31 → WF i q n →
      Agr s1 q i → Agr s2 q i →
      insertGo vc s2 u2 v2 fuel i (insertGo vc s1 u1 v1 fuel i n) =
      insertGo vc s1 u1 v1 fuel i (insertGo vc s2 u2 v2 fuel i n) := by
  intro fuel
  induction fuel with
  | zero =>
      intro i q n hf hwf ha1 ha2
      obtain rfl : i = 31 := by omega
      have hs1 : s1 = q := funext fun j => ha1 j j.isLt
      have hs2 : s2 = q := funext fun j => ha2 j j.isLt
      have h12 : s1 = s2 := by rw [hs1, hs2]
      have hu : u1 ≠ u2 := hne h12
      subst h12
      cases n with
      | absent => rfl
      | internal ch cm => cases hwf with | internal h30 _ => omega
      | ext st sl sc =>
          have hagr : Agr st q 31 := by cases hwf with | ext h _ => exact h
          have hst : st = s1 := by
            rw [hs1]; exact funext fun j => hagr j j.isLt
          subst hst
          simp only [insertGo]
          simp [insertLast]
          rw [Function.update_comm hu]
  | succ f ih =>
      intro i q n hf hwf ha1 ha2
      have hi31 : i < 31 := by omega
      cases n with
      | absent => simp [insertGo, hi31]
      | ext st2 sl2 sc2 =>
          have hagr : Agr st2 q i := by cases hwf with | ext h _ => exact h
          exact insertGo_ext_comm vc s1 u1 v1 s2 u2 v2 hne st2 sl2 sc2
            (f + 1) i hf
            (fun _ => fd_ge_of_agr (by omega) (Agr_two hagr ha1))
            (fun _ => fd_ge_of_agr (by omega) (Agr_two hagr ha2))
            (fun _ => fd_ge_of_agr (by omega) (Agr_two ha1 ha2))
      | internal ch cm =>
          have hch : ∀ b : Byte, WF (i + 1) (pathUpd q i b) (ch b) := by
            cases hwf with | internal _ h => exact h
          rw [insertGo_internal_eq vc s1 u1 v1 f i ch cm hi31,
              insertGo_internal_eq vc s2 u2 v2 f i ch cm hi31,
              insertGo_internal_eq vc s2 u2 v2 f i
                (Function.update ch (s1 ⟨i, hi31⟩)
                  (insChild vc s1 u1 v1 f i (ch (s1 ⟨i, hi31⟩)))) cm hi31,
              insertGo_internal_eq vc s1 u1 v1 f i
                (Function.update ch (s2 ⟨i, hi31⟩)
                  (insChild vc s2 u2 v2 f i (ch (s2 ⟨i, hi31⟩)))) cm hi31]
          by_cases hidx : (s1 ⟨i, hi31⟩ : Byte) = s2 ⟨i, hi31⟩
          · rw [hidx]
            simp only [Function.update_same, Function.update_idem]
            have key : insChild vc s2 u2 v2 f i
                (insChild vc s1 u1 v1 f i (ch (s2 ⟨i, hi31⟩))) =
                insChild vc s1 u1 v1 f i
                  (insChild vc s2 u2 v2 f i (ch (s2 ⟨i, hi31⟩))) := by
              have hA1 : Agr s1 (pathUpd q i (s2 ⟨i, hi31⟩)) (i + 1) :=
                Agr_pathUpd ha1 (fun _ => hidx)
              have hA2 : Agr s2 (pathUpd q i (s2 ⟨i, hi31⟩)) (i + 1) :=
                Agr_pathUpd ha2 (fun _ => rfl)
              cases hc2 : ch (s2 ⟨i, hi31⟩) with
              | absent =>
                  simp only [insChild, freshExt_oneSlot]
                  by_cases e12 : s1 = s2
                  · subst e12
                    rw [insertGo_ext_match, insertGo_ext_match]
                    simp only [oneSlot]
                    rw [Function.update_comm (hne rfl)]
                  · have hA12 : Agr s1 s2 (i + 1) := Agr_two hA1 hA2
                    rw [insertGo_ext_split vc s2 u2 v2 s1 (oneSlot u1 v1)
                          (fun _ => zeroValue vc) f (i + 1) (by omega) e12
                          (fd_ge_of_agr (by omega) hA12),
                        insertGo_ext_split vc s1 u1 v1 s2 (oneSlot u2 v2)
                          (fun _ => zeroValue vc) f (i + 1) (by omega)
                          (fun h => e12 h.symm)
                          (by rw [fd_symm]; exact fd_ge_of_agr (by omega) hA12)]
                    rw [fd_symm s2 s1]
                    exact splitBuild_symm vc s1 (oneSlot u1 v1) s2
                      (oneSlot u2 v2) f (i + 1) (fd s1 s2) (by omega)
                      (fd_ge_of_agr (by omega) hA12) (fd_lt31_of_ne e12)
                      (fd_diff s1 s2 (fd_lt31_of_ne e12))
                      (fun j hj => fd_agree s1 s2 j hj)
              | internal ch2 cm2 =>
                  rw [insChild_ne_absent vc s1 u1 v1 f i
                        (show (Node.internal ch2 cm2 : Node Fr) ≠ .absent by
                          simp),
                      insChild_ne_absent vc s2 u2 v2 f i
                        (show (Node.internal ch2 cm2 : Node Fr) ≠ .absent by
                          simp),
                      insChild_ne_absent vc s2 u2 v2 f i
                        (insertGo_ne_absent vc s1 u1 v1 f (i + 1)
                          (show (Node.internal ch2 cm2 : Node Fr) ≠ .absent by
                            simp)),
                      insChild_ne_absent vc s1 u1 v1 f i
                        (insertGo_ne_absent vc s2 u2 v2 f (i + 1)
                          (show (Node.internal ch2 cm2 : Node Fr) ≠ .absent by
                            simp))]
                  have hwfc : WF (i + 1) (pathUpd q i (s2 ⟨i, hi31⟩))
                      (Node.internal ch2 cm2 : Node Fr) := by
                    rw [← hc2]; exact hch _
                  exact ih (i + 1) (pathUpd q i (s2 ⟨i, hi31⟩))
                    (.internal ch2 cm2) (by omega) hwfc hA1 hA2
              | ext st2 sl2 sc2 =>
                  rw [insChild_ne_absent vc s1 u1 v1 f i
                        (show (Node.ext st2 sl2 sc2 : Node Fr) ≠ .absent by
                          simp),
                      insChild_ne_absent vc s2 u2 v2 f i
                        (show (Node.ext st2 sl2 sc2 : Node Fr) ≠ .absent by
                          simp),
                      insChild_ne_absent vc s2 u2 v2 f i
                        (insertGo_ne_absent vc s1 u1 v1 f (i + 1)
                          (show (Node.ext st2 sl2 sc2 : Node Fr) ≠ .absent by
                            simp)),
                      insChild_ne_absent vc s1 u1 v1 f i
                        (insertGo_ne_absent vc s2 u2 v2 f (i + 1)
                          (show (Node.ext st2 sl2 sc2 : Node Fr) ≠ .absent by
                            simp))]
                  have hwfc : WF (i + 1) (pathUpd q i (s2 ⟨i, hi31⟩))
                      (Node.ext st2 sl2 sc2 : Node Fr) := by
                    rw [← hc2]; exact hch _
                  have hagr2 : Agr st2 (pathUpd q i (s2 ⟨i, hi31⟩)) (i + 1) := by
                    cases hwfc with | ext h _ => exact h
                  exact insertGo_ext_comm vc s1 u1 v1 s2 u2 v2 hne st2 sl2 sc2
                    f (i + 1) (by omega)
                    (fun _ => fd_ge_of_agr (by omega) (Agr_two hagr2 hA1))
                    (fun _ => fd_ge_of_agr (by omega) (Agr_two hagr2 hA2))
                    (fun _ => fd_ge_of_agr (by omega) (Agr_two hA1 hA2))
            rw [key]
          · rw [Function.update_noteq (Ne.symm hidx),
                Function.update_noteq hidx, Function.update_comm hidx]

theorem strip_update {Fr : Type} (ch : Fin 256 → Node Fr) (idx : Byte)
    (x : Node Fr) :
    (fun b => strip (Function.update ch idx x b)) =
      Function.update (fun b => strip (ch b)) idx (strip x) := by
  funext b
  by_cases hb : b = idx
  · subst hb; simp
  · simp [Function.update_noteq hb]

theorem strip_freshExt {Fr Cm Pf : Type} (vc : VCScheme Fr Cm Pf) (s : Stem)
    (u : Byte) (v : Value) :
    strip (freshExt vc s u v) = freshExt trivVC s u v := rfl

theorem WF_strip {Fr : Type} {i : Nat} {q : Stem} {n : Node Fr}
    (h : WF i q n) : WF i q (strip n) := by
  induction h with
  | absent => exact WF.absent
  | ext hagr hle => exact WF.ext hagr hle
  | internal hle hch ih => exact WF.internal hle ih

theorem splitBuild_zero_chain {Fr Cm Pf : Type} (vc : VCScheme Fr Cm Pf)
    {d i : Nat} (o : Stem) (so : Fin 256 → Option Value) (n : Stem)
    (sn : Fin 256 → Option Value) (h1 : i < d) (h2 : d < 31) :
    splitBuild vc d o so n sn 0 i =
      .internal (fun _ => .absent) (fun _ => zeroChild vc) := by
  rw [splitBuild, dif_pos ⟨h1, h2⟩]

theorem splitBuild_stuck {Fr Cm Pf : Type} (vc : VCScheme Fr Cm Pf)
    {d : Nat} (o : Stem) (so : Fin 256 → Option Value) (n : Stem)
    (sn : Fin 256 → Option Value) (h2 : ¬ d < 31) :
    ∀ fuel i, splitBuild vc d o so n sn fuel i =
      .internal (fun _ => .absent) (fun _ => zeroChild vc) := by
  intro fuel i
  rw [splitBuild, dif_neg (fun hc => h2 hc.2), dif_neg h2]

/-- Forgetting commitments commutes with the split builder. -/
theorem strip_splitBuild {Fr Cm Pf : Type} (vc : VCScheme Fr Cm Pf) (d : Nat)
    (o : Stem) (so : Fin 256 → Option Value) (n : Stem)
    (sn : Fin 256 → Option Value) :
    ∀ fuel i, strip (splitBuild vc d o so n sn fuel i) =
      splitBuild trivVC d o so n sn fuel i := by
  intro fuel
  induction fuel with
  | zero =>
      intro i
      by_cases h2 : d < 31
      · by_cases h1 : i < d
        · rw [splitBuild_zero_chain vc o so n sn h1 h2,
              splitBuild_zero_chain trivVC o so n sn h1 h2]
          rfl
        · rw [splitBuild_fork vc o so n sn 0 h1 h2,
              splitBuild_fork trivVC o so n sn 0 h1 h2]
          simp only [strip]
          rw [strip_update, strip_update]
          rfl
      · rw [splitBuild_stuck vc o so n sn h2, splitBuild_stuck trivVC o so n sn h2]
        rfl
  | succ f ih =>
      intro i
      by_cases h2 : d < 31
      · by_cases h1 : i < d
        · rw [splitBuild_lt vc o so n sn f h1 h2,
              splitBuild_lt trivVC o so n sn f h1 h2]
          simp only [strip]
          rw [strip_update, ih (i + 1)]
          rfl
        · rw [splitBuild_fork vc o so n sn (f + 1) h1 h2,
              splitBuild_fork trivVC o so n sn (f + 1) h1 h2]
          simp only [strip]
          rw [strip_update, strip_update]
          rfl
      · rw [splitBuild_stuck vc o so n sn h2, splitBuild_stuck trivVC o so n sn h2]
        rfl

/-- Forgetting commitments commutes with the depth-31 insert step. -/
theorem strip_insertLast {Fr Cm Pf : Type} (vc : VCScheme Fr Cm Pf)
    (s : Stem) (u : Byte) (v : Value) :
    ∀ n : Node Fr, strip (insertLast vc s u v n) =
      insertLast trivVC s u v (strip n) := by
  intro n
  cases n with
  | absent => rfl
  | ext st sl sc =>
      by_cases he : st = s
      · simp [insertLast, strip, he]
      · simp [insertLast, strip, he]
  | internal ch cm =>
      cases hc : ch (s ⟨30, by omega⟩) with
      | absent =>
          simp only [insertLast, strip, hc]
          rw [strip_update]
          rfl
      | internal ch2 cm2 => simp only [insertLast, strip, hc]
      | ext st2 sl2 sc2 =>
          by_cases he : st2 = s
          · subst he
            simp only [insertLast, strip, hc, if_pos rfl]
            rw [strip_update]
            rfl
          · simp only [insertLast, strip, hc, if_neg he]

/-- Forgetting commitments commutes with the insert walk. -/
theorem strip_insertGo {Fr Cm Pf : Type} (vc : VCScheme Fr Cm Pf) (s : Stem)
    (u : Byte) (v : Value) :
    ∀ fuel i (q : Stem) (n : Node Fr), fuel + i = 31 → WF i q n →
      Agr s q i →
      strip (insertGo vc s u v fuel i n) =
        insertGo trivVC s u v fuel i (strip n) := by
  intro fuel
  induction fuel with
  | zero => intro i q n hf hwf ha; exact strip_insertLast vc s u v n
  | succ f ih =>
      intro i q n hf hwf ha
      have hi31 : i < 31 := by omega
      cases n with
      | absent => simp [insertGo, hi31, strip]
      | ext st' sl sc =>
          by_cases he : st' = s
          · subst he
            simp only [strip]
            rw [insertGo_ext_match, insertGo_ext_match]
            rfl
          · have hagr : Agr st' q i := by cases hwf with | ext h _ => exact h
            have hile : i ≤ fd st' s := fd_ge_of_agr (by omega) (Agr_two hagr ha)
            simp only [strip]
            rw [insertGo_ext_split vc s u v st' sl sc (f + 1) i hf he hile,
                insertGo_ext_split trivVC s u v st' sl (fun _ => ()) (f + 1) i
                  hf he hile,
                strip_splitBuild]
      | internal ch cm =>
          have hch : ∀ b : Byte, WF (i + 1) (pathUpd q i b) (ch b) := by
            cases hwf with | internal _ h => exact h
          rw [insertGo_internal_eq vc s u v f i ch cm hi31]
          simp only [strip]
          rw [insertGo_internal_eq trivVC s u v f i (fun b => strip (ch b))
                (fun _ => ()) hi31]
          rw [strip_update]
          have key : strip (insChild vc s u v f i (ch (s ⟨i, hi31⟩))) =
              insChild trivVC s u v f i (strip (ch (s ⟨i, hi31⟩))) := by
            cases hc : ch (s ⟨i, hi31⟩) with
            | absent => rfl
            | internal ch2 cm2 =>
                have hwfc : WF (i + 1) (pathUpd q i (s ⟨i, hi31⟩))
                    (Node.internal ch2 cm2 : Node Fr) := by
                  rw [← hc]; exact hch _
                show strip (insertGo vc s u v f (i + 1) (.internal ch2 cm2)) =
                  insertGo trivVC s u v f (i + 1) (strip (.internal ch2 cm2))
                exact ih (i + 1) _ _ (by omega) hwfc
                  (Agr_pathUpd ha (fun _ => rfl))
            | ext st2 sl2 sc2 =>
                have hwfc : WF (i + 1) (pathUpd q i (s ⟨i, hi31⟩))
                    (Node.ext st2 sl2 sc2 : Node Fr) := by
                  rw [← hc]; exact hch _
                show strip (insertGo vc s u v f (i + 1) (.ext st2 sl2 sc2)) =
                  insertGo trivVC s u v f (i + 1) (strip (.ext st2 sl2 sc2))
                exact ih (i + 1) _ _ (by omega) hwfc
                  (Agr_pathUpd ha (fun _ => rfl))
          rw [key]

theorem computeCommitment_ne_absent {Fr Cm Pf : Type}
    (vc : VCScheme Fr Cm Pf) {n : Node Fr} (h : n ≠ .absent) :
    (computeCommitment vc n).1 ≠ .absent := by
  cases n with
  | absent => exact absurd rfl h
  | internal ch cm => simp [computeCommitment]
  | ext st sl sc => simp [computeCommitment]

/-- A 32-byte key is determined by its stem and suffix. -/
theorem splitKey_inj {k1 k2 : Key} (h1 : (splitKey k1).1 = (splitKey k2).1)
    (h2 : (splitKey k1).2 = (splitKey k2).2) : k1 = k2 := by
  simp only [splitKey] at h1 h2
  funext j
  by_cases hj : (j : Nat) < 31
  · have := congrFun h1 ⟨(j : Nat), hj⟩
    have hje : (⟨(j : Nat), by omega⟩ : Fin 32) = j := Fin.ext rfl
    rwa [hje] at this
  · have hje : j = ⟨31, by omega⟩ := Fin.ext (show (j : Nat) = 31 by omega)
    rw [hje]
    exact h2

/-- Two root-level inserts into fresh single-slot extensions commute. -/
theorem freshExt_insertGo_comm {Fr Cm Pf : Type} (vc : VCScheme Fr Cm Pf)
    (s1 : Stem) (u1 : Byte) (v1 : Value) (s2 : Stem) (u2 : Byte) (v2 : Value)
    (hne : s1 = s2 → u1 ≠ u2) :
    insertGo vc s2 u2 v2 31 0 (freshExt vc s1 u1 v1) =
      insertGo vc s1 u1 v1 31 0 (freshExt vc s2 u2 v2) := by
  rw [freshExt_oneSlot, freshExt_oneSlot]
  by_cases e : s1 = s2
  · subst e
    rw [insertGo_ext_match, insertGo_ext_match]
    simp only [oneSlot]
    rw [Function.update_comm (hne rfl)]
  · rw [insertGo_ext_split vc s2 u2 v2 s1 (oneSlot u1 v1)
          (fun _ => zeroValue vc) 31 0 rfl e (Nat.zero_le _),
        insertGo_ext_split vc s1 u1 v1 s2 (oneSlot u2 v2)
          (fun _ => zeroValue vc) 31 0 rfl (fun h => e h.symm) (Nat.zero_le _),
        fd_symm s2 s1]
    exact splitBuild_symm vc s1 (oneSlot u1 v1) s2 (oneSlot u2 v2) 31 0
      (fd s1 s2) rfl (Nat.zero_le _) (fd_lt31_of_ne e)
      (fd_diff s1 s2 (fd_lt31_of_ne e)) (fun j hj => fd_agree s1 s2 j hj)

theorem treeInsert_vc {Fr Cm Pf : Type} (t : VerkleTree Fr Cm Pf) (k : Key)
    (v : Value) : (treeInsert t k v).vc = t.vc := by
  cases ht : t.root <;> simp [treeInsert, ht]

theorem treeInsert_root_absent {Fr Cm Pf : Type} {t : VerkleTree Fr Cm Pf}
    (ht : t.root = .absent) (k : Key) (v : Value) :
    (treeInsert t k v).root =
      (computeCommitment t.vc
        (freshExt t.vc (splitKey k).1 (splitKey k).2 v)).1 := by
  simp [treeInsert, ht]

theorem treeInsert_root_ne {Fr Cm Pf : Type} {t : VerkleTree Fr Cm Pf}
    (ht : t.root ≠ .absent) (k : Key) (v : Value) :
    (treeInsert t k v).root =
      (computeCommitment t.vc
        (insertGo t.vc (splitKey k).1 (splitKey k).2 v 31 0 t.root)).1 := by
  cases htr : t.root with
  | absent => exact absurd htr ht
  | internal ch cm => simp [treeInsert, htr]
  | ext st sl sc => simp [treeInsert, htr]

theorem VerkleTree.eq_of_fields {Fr Cm Pf : Type}
    {t1 t2 : VerkleTree Fr Cm Pf} (h1 : t1.root = t2.root)
    (h2 : t1.vc = t2.vc) : t1 = t2 := by
  cases t1; cases t2
  simp only at h1 h2
  rw [h1, h2]

/-- Inserting two distinct keys commutes on every reachable tree. -/
theorem treeInsert_comm {Fr Cm Pf : Type} {vc : VCScheme Fr Cm Pf}
    {t : VerkleTree Fr Cm Pf} (hr : Reachable vc t) (k1 k2 : Key)
    (v1 v2 : Value) (hk : k1 ≠ k2) :
    treeInsert (treeInsert t k1 v1) k2 v2 =
      treeInsert (treeInsert t k2 v2) k1 v1 := by
  have hne : (splitKey k1).1 = (splitKey k2).1 →
      (splitKey k1).2 ≠ (splitKey k2).2 := by
    intro hs hu
    exact hk (splitKey_inj hs hu)
  have agr0 : ∀ s q : Stem, Agr s q 0 := fun s q j hj => absurd hj (by omega)
  have q0 : Stem := fun _ => 0
  refine VerkleTree.eq_of_fields ?_ ?_
  · by_cases hab : t.root = .absent
    · have hab1 : (treeInsert t k1 v1).root ≠ .absent := by
        rw [treeInsert_root_absent hab k1 v1]
        exact computeCommitment_ne_absent t.vc (by simp [freshExt])
      have hab2 : (treeInsert t k2 v2).root ≠ .absent := by
        rw [treeInsert_root_absent hab k2 v2]
        exact computeCommitment_ne_absent t.vc (by simp [freshExt])
      rw [treeInsert_root_ne hab1 k2 v2, treeInsert_root_ne hab2 k1 v1,
          treeInsert_vc, treeInsert_vc,
          treeInsert_root_absent hab k1 v1, treeInsert_root_absent hab k2 v2]
      refine congrArg Prod.fst (computeCommitment_congr t.vc _ _ ?_)
      have hwfA : WF 0 q0 (computeCommitment t.vc
          (freshExt t.vc (splitKey k1).1 (splitKey k1).2 v1)).1 :=
        WF_computeCommitment t.vc
          (WF_freshExt t.vc _ v1 (agr0 _ _) (by omega))
      have hwfB : WF 0 q0 (computeCommitment t.vc
          (freshExt t.vc (splitKey k2).1 (splitKey k2).2 v2)).1 :=
        WF_computeCommitment t.vc
          (WF_freshExt t.vc _ v2 (agr0 _ _) (by omega))
      rw [strip_insertGo t.vc _ _ _ 31 0 q0 _ rfl hwfA (agr0 _ _),
          strip_insertGo t.vc _ _ _ 31 0 q0 _ rfl hwfB (agr0 _ _),
          strip_computeCommitment, strip_computeCommitment,
          strip_freshExt, strip_freshExt,
          freshExt_insertGo_comm trivVC _ _ _ _ _ _ hne]
    · have hwfR : WF 0 q0 t.root := WF_reachable hr q0
      have hab1 : (treeInsert t k1 v1).root ≠ .absent := by
        rw [treeInsert_root_ne hab k1 v1]
        exact computeCommitment_ne_absent t.vc
          (insertGo_ne_absent t.vc _ _ _ 31 0 hab)
      have hab2 : (treeInsert t k2 v2).root ≠ .absent := by
        rw [treeInsert_root_ne hab k2 v2]
        exact computeCommitment_ne_absent t.vc
          (insertGo_ne_absent t.vc _ _ _ 31 0 hab)
      rw [treeInsert_root_ne hab1 k2 v2, treeInsert_root_ne hab2 k1 v1,
          treeInsert_vc, treeInsert_vc,
          treeInsert_root_ne hab k1 v1, treeInsert_root_ne hab k2 v2]
      refine congrArg Prod.fst (computeCommitment_congr t.vc _ _ ?_)
      have hwfA : WF 0 q0 (computeCommitment t.vc
          (insertGo t.vc (splitKey k1).1 (splitKey k1).2 v1 31 0 t.root)).1 :=
        WF_computeCommitment t.vc
          (WF_insertGo t.vc 31 0 q0 t.root rfl hwfR (agr0 _ _))
      have hwfB : WF 0 q0 (computeCommitment t.vc
          (insertGo t.vc (splitKey k2).1 (splitKey k2).2 v2 31 0 t.root)).1 :=
        WF_computeCommitment t.vc
          (WF_insertGo t.vc 31 0 q0 t.root rfl hwfR (agr0 _ _))
      rw [strip_insertGo t.vc _ _ _ 31 0 q0 _ rfl hwfA (agr0 _ _),
          strip_insertGo t.vc _ _ _ 31 0 q0 _ rfl hwfB (agr0 _ _),
          strip_computeCommitment, strip_computeCommitment,
          strip_insertGo t.vc _ _ _ 31 0 q0 _ rfl hwfR (agr0 _ _),
          strip_insertGo t.vc _ _ _ 31 0 q0 _ rfl hwfR (agr0 _ _),
          insertGo_comm trivVC _ _ _ _ _ _ hne 31 0 q0 _ rfl (WF_strip hwfR)
            (agr0 _ _) (agr0 _ _)]
  · rw [treeInsert_vc, treeInsert_vc, treeInsert_vc, treeInsert_vc]

/-- Insertion of a list of key-value pairs with pairwise distinct keys is
order independent (as a fold, for every permutation, from every reachable
start tree). -/
theorem foldl_insert_perm {Fr Cm Pf : Type} {vc : VCScheme Fr Cm Pf}
    {l1 l2 : List (Key × Value)} (hp : l1.Perm l2) :
    ∀ t : VerkleTree Fr Cm Pf, Reachable vc t → (l1.map Prod.fst).Nodup →
      l1.foldl (fun t kv => treeInsert t kv.1 kv.2) t =
      l2.foldl (fun t kv => treeInsert t kv.1 kv.2) t := by
  induction hp with
  | nil => intro t ht hnd; rfl
  | cons x hp ih =>
      intro t ht hnd
      simp only [List.foldl_cons]
      refine ih _ (Reachable_treeInsert ht x.1 x.2) ?_
      simp only [List.map_cons, List.nodup_cons] at hnd
      exact hnd.2
  | swap x y l =>
      intro t ht hnd
      simp only [List.foldl_cons]
      have hxy : y.1 ≠ x.1 := by
        simp only [List.map_cons, List.nodup_cons, List.mem_cons] at hnd
        exact fun h => hnd.1 (Or.inl h)
      rw [treeInsert_comm ht y.1 x.1 y.2 x.2 hxy]
  | trans h1 h2 ih1 ih2 =>
      intro t ht hnd
      rw [ih1 t ht hnd, ih2 t ht ((h1.map Prod.fst).nodup hnd)]

/-- C6: split correctness.  For any two keys with distinct stems inserted in
either order into a reachable tree, both values remain retrievable by `get`
(the stems may first diverge at any byte position 0..30, including the last
stem byte; the statement quantifies over all distinct stem pairs). -/
theorem C6_split_correctness {Fr Cm Pf : Type} {vc : VCScheme Fr Cm Pf}
    {t : VerkleTree Fr Cm Pf} (hr : Reachable vc t) (k1 k2 : Key)
    (v1 v2 : Value) (hs : (splitKey k1).1 ≠ (splitKey k2).1) :
    (treeGet (treeInsert (treeInsert t k1 v1) k2 v2) k1 = some v1 ∧
      treeGet (treeInsert (treeInsert t k1 v1) k2 v2) k2 = some v2) ∧
    (treeGet (treeInsert (treeInsert t k2 v2) k1 v1) k1 = some v1 ∧
      treeGet (treeInsert (treeInsert t k2 v2) k1 v1) k2 = some v2) := by
  have hk : k1 ≠ k2 := fun h => hs (by rw [h])
  have hr1 := Reachable_treeInsert hr k1 v1
  have hr2 := Reachable_treeInsert hr k2 v2
  refine ⟨⟨?_, treeGet_treeInsert_self hr1 k2 v2⟩,
    ⟨treeGet_treeInsert_self hr2 k1 v1, ?_⟩⟩
  · rw [treeInsert_comm hr k1 k2 v1 v2 hk]
    exact treeGet_treeInsert_self hr2 k1 v1
  · rw [treeInsert_comm hr k2 k1 v2 v1 (Ne.symm hk)]
    exact treeGet_treeInsert_self hr1 k2 v2

/-- C6 witness: concrete split at the last stem byte (divergence at byte 30)
over the ideal VC, starting from the empty tree. -/
theorem C6_witness :
    Reachable idealVC (VerkleTree.new idealVC) ∧
    (splitKey exKeyC6a).1 ≠ (splitKey exKeyC6b).1 ∧
    treeGet (treeInsert (treeInsert (VerkleTree.new idealVC) exKeyC6a [7])
      exKeyC6b [8]) exKeyC6a = some [7] ∧
    treeGet (treeInsert (treeInsert (VerkleTree.new idealVC) exKeyC6a [7])
      exKeyC6b [8]) exKeyC6b = some [8] :=
  ⟨⟨[], rfl⟩, by decide,
    (C6_split_correctness ⟨[], rfl⟩ exKeyC6a exKeyC6b [7] [8] (by decide)).1⟩

/-- C7 (amended): two trees built with the same VC instance by inserting the
same key-value multiset in any two orders have identical root commitments
after commitment recomputation, provided each key occurs at most once in the
multiset.  (Without the distinct-key proviso the claim fails: see the
duplicate-key counterexample.) -/
theorem C7_amended_order_independence {Fr Cm Pf : Type}
    (vc : VCScheme Fr Cm Pf) (l1 l2 : List (Key × Value)) (hp : l1.Perm l2)
    (hnd : (l1.map Prod.fst).Nodup) :
    rootCommitAfter vc (buildTree vc l1) =
      rootCommitAfter vc (buildTree vc l2) := by
  rw [show buildTree vc l1 = buildTree vc l2 from
    foldl_insert_perm hp (VerkleTree.new vc) ⟨[], rfl⟩ hnd]

/-- C7 witness: a concrete two-key multiset inserted in both orders over the
ideal VC. -/
theorem C7_amended_witness :
    exPermA.Perm exPermB ∧ (exPermA.map Prod.fst).Nodup ∧
    rootCommitAfter idealVC (buildTree idealVC exPermA) =
      rootCommitAfter idealVC (buildTree idealVC exPermB) :=
  ⟨List.Perm.swap (exKeyB', [2]) (exKeyB, [1]) [], by decide,
    C7_amended_order_independence idealVC exPermA exPermB
      (List.Perm.swap (exKeyB', [2]) (exKeyB, [1]) []) (by decide)⟩

end Verkle
